import Mathlib

/-! # Keyboard input pipeline of the osv3 kernel

A shallow embedding of `kernel/src/kernel.c` and `kernel/include/string.h`.

Conventions of the embedding

* A `char` is the byte it holds, a natural number (`'\n'` is 10, `'\b'` is 8, `' '` is 32).
* `size_t` is `unsigned int` (32 bits).  The ring indices are always reduced modulo
  `BUFFER_SIZE = 128`, which divides `2^32`, so the wrap of `buffer_head + 1` at `2^32`
  cannot be observed and is not written; the VGA cursor arithmetic keeps its `% 2^32`.
* Every global of `kernel.c` is a field of `Machine`.  Arrays are functions from the index
  to the element, and an index past the declared size denotes the memory that follows the
  array, so that an access outside an array stays visible instead of being lost.
* A `char*` is `Option Nat`: `none` is `NULL` and `some p` is the address `input_buffer + p`.
  A `const char*` that is only read is the function `i ↦ data[i]`.
* Loops whose exit depends on the data carry a `fuel` argument and return `none` when it
  runs out; `get_char` returns `none` when it would spin forever.
-/

namespace Kernel

/-! ## Constants -/

def MAX_INPUT_SIZE : Nat := 256
def MAX_ARGS : Nat := 10
def VGA_WIDTH : Nat := 80
def VGA_HEIGHT : Nat := 25
def BUFFER_SIZE : Nat := 128
def KEYBOARD_DATA_PORT : Nat := 0x60
def VGA_COLOR_BLACK : Nat := 0
def VGA_COLOR_LIGHT_GREY : Nat := 7

/-- Store `v` at index `i` of an array: `a[i] = v`. -/
def store (a : Nat → α) (i : Nat) (v : α) : Nat → α :=
  fun j => if j = i then v else a j

/-- Global state of the kernel, followed by the environment it interacts with. -/
structure Machine where
  /-- Line 7, `char input_buffer[MAX_INPUT_SIZE]`. -/
  input_buffer : Nat → Nat
  /-- Line 13. -/
  terminal_row : Nat
  /-- Line 14. -/
  terminal_column : Nat
  /-- Line 15. -/
  terminal_color : Nat
  /-- Line 16: the 16-bit cells `terminal_buffer` points to (`VGA_MEMORY`). -/
  terminal_buffer : Nat → Nat
  /-- Line 48, `char key_buffer[BUFFER_SIZE]`. -/
  key_buffer : Nat → Nat
  /-- Line 49. -/
  buffer_head : Nat
  /-- Line 50. -/
  buffer_tail : Nat
  /-- The `static char* last` of `strtok` (string.h line 32). -/
  last : Option Nat
  /-- The bytes that follow the 128 entries of `scancode_map`: entry `i` is what
  `scancode_map[128 + i]` reads. -/
  scancode_map_overrun : Nat → Nat
  /-- Scancodes the keyboard controller has yet to deliver, one per interrupt. -/
  keyboard : List Nat
  /-- Trace of `outb(port, value)` calls, oldest first. -/
  port_writes : List (Nat × Nat)
  /-- Trace of the characters handed to `terminal_putchar`, oldest first. -/
  sink : List Nat

/-! ## VGA terminal (kernel.c lines 35-41, 135-164) -/

/-- Lines 35-37: `return fg | bg << 4;` as `uint8_t`. -/
def vga_entry_color (fg bg : Nat) : Nat :=
  (fg ||| (bg <<< 4)) % 256

/-- Lines 39-41: `return (uint16_t) uc | (uint16_t) color << 8;` as `uint16_t`. -/
def vga_entry (uc color : Nat) : Nat :=
  (uc ||| (color <<< 8)) % 65536

/-- Lines 140-145: the two nested `for` loops of `terminal_initialize`. -/
def terminal_initialize_fill (m : Machine) : Machine :=
  (List.range VGA_HEIGHT).foldl
    (fun my y =>
      (List.range VGA_WIDTH).foldl
        (fun mx x =>
          { mx with
            terminal_buffer :=
              store mx.terminal_buffer (y * VGA_WIDTH + x) (vga_entry 32 mx.terminal_color) })
        my)
    m

/-- Lines 135-146.  The field `terminal_buffer` holds the cells at `VGA_MEMORY`, so the
assignment of line 139 does not show. -/
def terminal_initialize (m : Machine) : Machine :=
  terminal_initialize_fill
    { m with
      terminal_row := 0
      terminal_column := 0
      terminal_color := vga_entry_color VGA_COLOR_LIGHT_GREY VGA_COLOR_BLACK }

/-- Lines 148-156. -/
def terminal_putchar (c : Nat) (m : Machine) : Machine :=
  let uc := c % 256
  let m1 : Machine :=
    { m with
      terminal_buffer :=
        store m.terminal_buffer ((m.terminal_row * VGA_WIDTH + m.terminal_column) % 4294967296)
          (vga_entry uc m.terminal_color)
      sink := m.sink ++ [c] }
  let column := (m1.terminal_column + 1) % 4294967296
  if column = VGA_WIDTH then
    let row := (m1.terminal_row + 1) % 4294967296
    if row = VGA_HEIGHT then
      { m1 with terminal_column := 0, terminal_row := 0 }
    else
      { m1 with terminal_column := 0, terminal_row := row }
  else
    { m1 with terminal_column := column }

/-- Lines 158-164: `data` is the function `i ↦ data[i]`. -/
def terminal_writestring_loop : Nat → (Nat → Nat) → Nat → Machine → Option Machine
  | 0, _, _, _ => none
  | fuel + 1, data, i, m =>
    if data i ≠ 0 then
      terminal_writestring_loop fuel data (i + 1) (terminal_putchar (data i) m)
    else
      some m

/-- Lines 158-164. -/
def terminal_writestring (fuel : Nat) (data : Nat → Nat) (m : Machine) : Option Machine :=
  terminal_writestring_loop fuel data 0 m

/-! ## Scancode translation (lines 201-240) -/

/-- Lines 202-238: the initialiser of `scancode_map`, row by row; the entries the
initialiser leaves out are zero. -/
def scancode_map : List Nat :=
  [ 0, 27, 49, 50, 51, 52, 53, 54, 55, 56,      -- 0, 27, '1' .. '8'
    57, 48, 45, 61, 8,                          -- '9', '0', '-', '=', '\b'
    9,                                          -- '\t'
    113, 119, 101, 114,                         -- 'q', 'w', 'e', 'r'
    116, 121, 117, 105, 111, 112, 91, 93, 10,   -- 't' 'y' 'u' 'i' 'o' 'p' '[' ']' '\n'
    0,                                          -- 29 control
    97, 115, 100, 102, 103, 104, 106, 107, 108, 59, -- 'a' 's' 'd' 'f' 'g' 'h' 'j' 'k' 'l' ';'
    39, 96, 0,                                  -- quote, backquote, left shift
    92, 122, 120, 99, 118, 98, 110,             -- backslash, 'z' 'x' 'c' 'v' 'b' 'n'
    109, 44, 46, 47, 0,                         -- 'm' ',' '.' '/', right shift
    42,                                         -- '*'
    0,                                          -- alt
    32,                                         -- space bar
    0,                                          -- caps lock
    0,                                          -- 59, F1
    0, 0, 0, 0, 0, 0, 0, 0,
    0,                                          -- F10
    0,                                          -- 69, num lock
    0,                                          -- scroll lock
    0,                                          -- home
    0,                                          -- up arrow
    0,                                          -- page up
    45,                                         -- '-'
    0,                                          -- left arrow
    0,
    0,                                          -- right arrow
    43,                                         -- '+'
    0,                                          -- 79, end
    0,                                          -- down arrow
    0,                                          -- page down
    0,                                          -- insert
    0,                                          -- delete
    0, 0, 0, 0,                                 -- F11
    0,                                          -- F12
    0 ] ++ List.replicate 38 0

/-- Lines 201-240: `return scancode_map[scancode];` with `scancode` a `uint8_t`.  The table
has 128 entries; a larger index reads the bytes behind it. -/
def scancode_to_char (m : Machine) (scancode : Nat) : Nat :=
  if scancode < 128 then scancode_map.getD scancode 0
  else m.scancode_map_overrun (scancode - 128)

/-! ## Keystroke ring buffer and interrupt handler (lines 47-89) -/

/-- Lines 52-54. -/
def buffer_is_empty (m : Machine) : Bool :=
  m.buffer_head == m.buffer_tail

/-- Lines 56-58. -/
def buffer_is_full (m : Machine) : Bool :=
  (m.buffer_head + 1) % BUFFER_SIZE == m.buffer_tail

/-- Lines 66-68: the port write is recorded in the trace. -/
def outb (port value : Nat) (m : Machine) : Machine :=
  { m with port_writes := m.port_writes ++ [(port, value)] }

/-- Lines 74-77 of `keyboard_isr`: the guarded store of the translated character `c`. -/
def keyboard_isr_push (c : Nat) (m : Machine) : Machine :=
  if c ≠ 0 ∧ buffer_is_full m = false then
    { m with
      key_buffer := store m.key_buffer m.buffer_head c
      buffer_head := (m.buffer_head + 1) % BUFFER_SIZE }
  else
    m

/-- Lines 70-80; `scancode` is the byte `inb(KEYBOARD_DATA_PORT)` returns. -/
def keyboard_isr (scancode : Nat) (m : Machine) : Machine :=
  let c := scancode_to_char m scancode
  outb 0x20 0x20 (keyboard_isr_push c m)

/-- Lines 83-85 of `get_char`: the spin on `buffer_is_empty()`.  Nothing in the mainline
changes the buffer while it spins; each pending keyboard interrupt runs `keyboard_isr`
once.  With the buffer empty and no interrupt left the loop never ends (`none`). -/
def get_char_wait : List Nat → Machine → Option Machine
  | [], m => if buffer_is_empty m then none else some { m with keyboard := [] }
  | scancode :: pending, m =>
    if buffer_is_empty m then get_char_wait pending (keyboard_isr scancode m)
    else some { m with keyboard := scancode :: pending }

/-- Lines 82-89. -/
def get_char (m : Machine) : Option (Nat × Machine) :=
  match get_char_wait m.keyboard m with
  | none => none
  | some m1 =>
    let c := m1.key_buffer m1.buffer_tail
    some (c, { m1 with buffer_tail := (m1.buffer_tail + 1) % BUFFER_SIZE })

/-! ## String helpers (string.h) -/

/-- Bytes of a string literal, without the terminating NUL. -/
def bytes (s : String) : List Nat :=
  s.toList.map Char.toNat

/-- A string literal as the `const char*` the compiler emits: its bytes, then NUL. -/
def literal (s : String) : Nat → Nat :=
  fun i => (bytes s).getD i 0

/-- The `const char*` view of the address `input_buffer + p`. -/
def deref (m : Machine) (p : Nat) : Nat → Nat :=
  fun i => m.input_buffer (p + i)

/-- Lines 23-29 of string.h; `i` counts the `s1++; s2++` steps taken so far. -/
def strcmp : Nat → (Nat → Nat) → (Nat → Nat) → Nat → Option Int
  | 0, _, _, _ => none
  | fuel + 1, s1, s2, i =>
    if s1 i ≠ 0 ∧ s1 i = s2 i then strcmp fuel s1 s2 (i + 1)
    else some ((s1 i : Int) - (s2 i : Int))

/-- Lines 40-51 of string.h: the `while (*last)` scan.  `delim` holds the bytes of the
delimiter string before its NUL, so the inner `for` is a membership test. -/
def strtok_scan : Nat → List Nat → Nat → Nat → Machine → Option (Option Nat × Machine)
  | 0, _, _, _, _ => none
  | fuel + 1, delim, token, last, m =>
    if m.input_buffer last ≠ 0 then
      if delim.contains (m.input_buffer last) then
        some (some token,
          { m with input_buffer := store m.input_buffer last 0, last := some (last + 1) })
      else
        strtok_scan fuel delim token (last + 1) m
    else
      some (some token, { m with last := none })

/-- Lines 31-52 of string.h. -/
def strtok (fuel : Nat) (str : Option Nat) (delim : List Nat) (m : Machine) :
    Option (Option Nat × Machine) :=
  let m1 : Machine := if str ≠ none then { m with last := str } else m
  match m1.last with
  | none => some (none, m1)
  | some token => strtok_scan fuel delim token token m1

/-! ## Line reader (lines 91-107) -/

/-- Lines 96-105: the body of the `while (1)` of `read_input` after `c = get_char()`.
The first component is `true` when the body ends in `break`; the second is `index`. -/
def read_input_body (c index : Nat) (m : Machine) : Bool × Nat × Machine :=
  if c = 10 ∨ c = 13 then
    (true, index, { m with input_buffer := store m.input_buffer index 0 })
  else if c = 8 ∧ index > 0 then
    (false, index - 1, terminal_putchar 8 m)
  else if index < MAX_INPUT_SIZE - 1 then
    (false, index + 1,
      terminal_putchar c { m with input_buffer := store m.input_buffer index c })
  else
    (false, index, m)

/-- Lines 94-106: the `while (1)` of `read_input`. -/
def read_input_loop : Nat → Nat → Machine → Option Machine
  | 0, _, _ => none
  | fuel + 1, index, m =>
    match get_char m with
    | none => none
    | some (c, m1) =>
      match read_input_body c index m1 with
      | (true, _, m2) => some m2
      | (false, index2, m2) => read_input_loop fuel index2 m2

/-- Lines 91-107. -/
def read_input (fuel : Nat) (m : Machine) : Option Machine :=
  read_input_loop fuel 0 m

/-! ## Tokenizer (lines 109-117) -/

/-- Lines 112-116: the `while` of `parse_input` and the final `argv[argc] = NULL`.  The
result carries the final `argc`, the index of that last store. -/
def parse_input_loop :
    Nat → Option Nat → Nat → (Nat → Option Nat) → Machine →
      Option ((Nat → Option Nat) × Nat × Machine)
  | 0, _, _, _, _ => none
  | fuel + 1, token, argc, argv, m =>
    if token ≠ none ∧ argc < MAX_ARGS then
      match strtok fuel none (bytes " ") m with
      | none => none
      | some (token2, m2) => parse_input_loop fuel token2 (argc + 1) (store argv argc token) m2
    else
      some (store argv argc none, argc, m)

/-- Lines 109-117. -/
def parse_input (fuel : Nat) (input : Option Nat) (argv : Nat → Option Nat) (m : Machine) :
    Option ((Nat → Option Nat) × Nat × Machine) :=
  match strtok fuel input (bytes " ") m with
  | none => none
  | some (token, m1) => parse_input_loop fuel token 0 argv m1

/-! ## Command dispatcher (lines 119-133) -/

/-- Lines 121-124: the `for` of the `echo` branch. -/
def execute_command_echo : Nat → (Nat → Option Nat) → Nat → Machine → Option Machine
  | 0, _, _, _ => none
  | fuel + 1, argv, i, m =>
    match argv i with
    | none => some m
    | some p =>
      match terminal_writestring fuel (deref m p) m with
      | none => none
      | some m1 => execute_command_echo fuel argv (i + 1) (terminal_putchar 32 m1)

/-- Lines 119-133.  `argv[0]` is dereferenced at once, so a `NULL` there has no result. -/
def execute_command (fuel : Nat) (argv : Nat → Option Nat) (m : Machine) : Option Machine :=
  match argv 0 with
  | none => none
  | some p =>
    match strcmp fuel (deref m p) (literal "echo") 0 with
    | none => none
    | some r1 =>
      if r1 = 0 then
        match execute_command_echo fuel argv 1 m with
        | none => none
        | some m1 => some (terminal_putchar 10 m1)
      else
        match strcmp fuel (deref m p) (literal "clear") 0 with
        | none => none
        | some r2 =>
          if r2 = 0 then
            some ( terminal_initialize m)
          else
            match terminal_writestring fuel (literal "Unknown command: ") m with
            | none => none
            | some m1 =>
              match terminal_writestring fuel (deref m1 p) m1 with
              | none => none
              | some m2 => some (terminal_putchar 10 m2)

/-! ## Shell loop (lines 166-176) -/

/-- Lines 168-174: one turn of the `while (1)` of `shell`.  `argv` is the content the
fresh local array happens to have. -/
def shell_turn (fuel : Nat) (argv : Nat → Option Nat) (m : Machine) : Option Machine :=
  match terminal_writestring fuel (literal "> ") m with
  | none => none
  | some m1 =>
    match read_input fuel m1 with
    | none => none
    | some m2 =>
      match parse_input fuel (some 0) argv m2 with
      | none => none
      | some (argv1, _, m3) =>
        if argv1 0 ≠ none then execute_command fuel argv1 m3 else some m3

/-! ## Vocabulary of the statements -/

/-- Both ring indices lie inside `key_buffer`. -/
def ring_ok (m : Machine) : Prop :=
  m.buffer_head < BUFFER_SIZE ∧ m.buffer_tail < BUFFER_SIZE

instance ring_ok_decidable (m : Machine) : Decidable (ring_ok m) := by
  unfold ring_ok
  infer_instance

/-- The characters stored and not yet read, oldest first: the slots from `buffer_tail`
up to, and without, `buffer_head`. -/
def unread (m : Machine) : List Nat :=
  (List.range ((m.buffer_head + BUFFER_SIZE - m.buffer_tail) % BUFFER_SIZE)).map
    fun i => m.key_buffer ((m.buffer_tail + i) % BUFFER_SIZE)

/-- The characters returned by `n` successive calls of `get_char`, and the state after
the last one. -/
def get_chars : Nat → Machine → Option (List Nat × Machine)
  | 0, m => some ([], m)
  | n + 1, m =>
    match get_char m with
    | none => none
    | some (c, m1) =>
      match get_chars n m1 with
      | none => none
      | some (cs, m2) => some (c :: cs, m2)

/-- The state after the push step of `keyboard_isr` ran once for each character of `cs`,
in order. -/
def push_all (cs : List Nat) (m : Machine) : Machine :=
  cs.foldl (fun s c => keyboard_isr_push c s) m

/-- The state `kernel_main` starts from: every global is zero-initialised, no key has been
pressed, nothing has been written. -/
def boot : Machine where
  input_buffer := fun _ => 0
  terminal_row := 0
  terminal_column := 0
  terminal_color := 0
  terminal_buffer := fun _ => 0
  key_buffer := fun _ => 0
  buffer_head := 0
  buffer_tail := 0
  last := none
  scancode_map_overrun := fun _ => 0
  keyboard := []
  port_writes := []
  sink := []

/-- The bytes `data[i]`, `data[i+1]`, ... are those of `w`, none of them NUL, and the byte
after them is NUL: `data + i` is the C string `w`. -/
def cstring_from (data : Nat → Nat) : Nat → List Nat → Prop
  | i, [] => data i = 0
  | i, c :: w => c ≠ 0 ∧ data i = c ∧ cstring_from data (i + 1) w

/-- The state after `terminal_putchar` ran once for each character of `w`, in order. -/
def putchars (w : List Nat) (m : Machine) : Machine :=
  w.foldl (fun s c => terminal_putchar c s) m

/-- Two states agree on everything but the terminal: the ring buffer, the input line, the
tokenizer cursor and the environment are the same. -/
def same_but_terminal (m m2 : Machine) : Prop :=
  m2.input_buffer = m.input_buffer ∧ m2.key_buffer = m.key_buffer ∧
    m2.buffer_head = m.buffer_head ∧ m2.buffer_tail = m.buffer_tail ∧ m2.last = m.last ∧
    m2.scancode_map_overrun = m.scancode_map_overrun ∧ m2.keyboard = m.keyboard ∧
    m2.port_writes = m.port_writes

/-- The characters `get_char` is going to return, in order, when the interrupts still to
come are the scancodes `pending`: the unread characters of the ring buffer, then the non-NUL
translations of the pending scancodes. -/
def incoming_from (pending : List Nat) (m : Machine) : List Nat :=
  unread m ++ (pending.map (scancode_to_char m)).filter (fun c => c ≠ 0)

/-- The characters `get_char` is going to return, in order. -/
def incoming (m : Machine) : List Nat :=
  incoming_from m.keyboard m

/-- Two states agree on everything the keyboard side never touches: the input line, the
terminal, the tokenizer cursor and the bytes behind `scancode_map`. -/
def same_but_keyboard (m m2 : Machine) : Prop :=
  m2.input_buffer = m.input_buffer ∧ m2.terminal_row = m.terminal_row ∧
    m2.terminal_column = m.terminal_column ∧ m2.terminal_color = m.terminal_color ∧
    m2.terminal_buffer = m.terminal_buffer ∧ m2.last = m.last ∧
    m2.scancode_map_overrun = m.scancode_map_overrun ∧ m2.sink = m.sink

/-- The bytes `data[i]`, `data[i+1]`, ... start with those of `w`, none of them NUL. -/
def chars_at (data : Nat → Nat) : Nat → List Nat → Prop
  | _, [] => True
  | i, c :: w => c ≠ 0 ∧ data i = c ∧ chars_at data (i + 1) w

/-- The line made of the pieces `ws` with one space between neighbours. -/
def line_of : List (List Nat) → List Nat
  | [] => []
  | [w] => w
  | w :: w2 :: ws => w ++ 32 :: line_of (w2 :: ws)

/-- The argument vector holds, from slot `i` on, pointers to the C strings `ws`, in order,
and `NULL` in the slot after them. -/
def argv_holds (m : Machine) (argv : Nat → Option Nat) : Nat → List (List Nat) → Prop
  | i, [] => argv i = none
  | i, w :: ws =>
    (∃ p, argv i = some p ∧ cstring_from m.input_buffer p w) ∧ argv_holds m argv (i + 1) ws

/-- What `echo` prints for the arguments `ws`: each one followed by one space. -/
def echo_output : List (List Nat) → List Nat
  | [] => []
  | w :: ws => w ++ 32 :: echo_output ws

/-- Fifteen one-letter words, `a` to `o`. -/
def fifteen_words : List (List Nat) :=
  [[97], [98], [99], [100], [101], [102], [103], [104], [105], [106], [107], [108], [109],
    [110], [111]]

/-- A state whose input line is `s`, NUL-terminated, as `read_input` leaves it. -/
def with_line (s : List Nat) (m : Machine) : Machine :=
  { m with input_buffer := fun i => s.getD i 0 }

/-- The number of unread characters as the claim words it, `(buffer_head - buffer_tail)`
modulo 128. -/
def unread_count (m : Machine) : Int :=
  ((m.buffer_head : Int) - (m.buffer_tail : Int)) % 128

/-- One operation on the ring buffer: an interrupt delivering a scancode, or a call of
`get_char`. -/
inductive RingOp where
  | isr (scancode : Nat)
  | get

/-- The effect of one ring-buffer operation; `get_char` is only admitted on a non-empty
buffer. -/
def ring_step (op : RingOp) (m : Machine) : Option Machine :=
  match op with
  | RingOp.isr scancode => some (keyboard_isr scancode m)
  | RingOp.get =>
    if buffer_is_empty m then none
    else
      match get_char m with
      | none => none
      | some (_, m1) => some m1

/-- The state after a sequence of ring-buffer operations, when each of them is admitted. -/
def ring_run : List RingOp → Machine → Option Machine
  | [], m => some m
  | op :: ops, m =>
    match ring_step op m with
    | none => none
    | some m1 => ring_run ops m1

/-- The pieces of a line between its spaces. -/
def split_spaces : List Nat → List (List Nat)
  | [] => [[]]
  | c :: cs =>
    if c = 32 then [] :: split_spaces cs
    else
      match split_spaces cs with
      | [] => [[c]]
      | w :: ws => (c :: w) :: ws

/-- The state after the keys `a`, left shift and `s` arrived on the booted machine and two
characters were read. -/
def two_keys_read : Machine :=
  { keyboard_isr 31 (keyboard_isr 42 (keyboard_isr 30 boot)) with buffer_tail := 2 }

/-- The in-progress line of `read_input` after one more character `c` that is neither
newline nor carriage return: lines 99-105 read on the line itself, `index` being its
length. -/
def line_edit (line : List Nat) (c : Nat) : List Nat :=
  if c = 8 ∧ line.length > 0 then line.dropLast
  else if line.length < MAX_INPUT_SIZE - 1 then line ++ [c]
  else line

/-- The in-progress line of `read_input` after the characters `cs`, none of them newline or
carriage return, arrived on an empty line. -/
def line_after (cs : List Nat) : List Nat :=
  cs.foldl line_edit []

/-- Where the mainline stands inside `get_char`: before the test of `buffer_is_empty()`
(line 83), before the read of `key_buffer[buffer_tail]` (line 86), or before the update of
`buffer_tail` (line 87) with the character `c` already read. -/
inductive GetCharPc where
  | test
  | read
  | update (c : Nat)

/-- The mainline, calling `get_char` again and again, together with the interrupt handler:
the machine, the place of the mainline inside `get_char`, the characters `keyboard_isr`
has stored so far and the characters `get_char` has returned so far. -/
structure Interleaved where
  machine : Machine
  pc : GetCharPc
  enqueued : List Nat
  returned : List Nat

/-- What happens next: a keyboard interrupt, served to completion, or one step of the
mainline. -/
inductive Tick where
  | interrupt (scancode : Nat)
  | mainline

/-- One step of the mainline inside `get_char` (lines 83-88). -/
def mainline_step (s : Interleaved) : Interleaved :=
  match s.pc with
  | GetCharPc.test =>
    if buffer_is_empty s.machine then s else { s with pc := GetCharPc.read }
  | GetCharPc.read =>
    { s with pc := GetCharPc.update (s.machine.key_buffer s.machine.buffer_tail) }
  | GetCharPc.update c =>
    { s with
      machine :=
        { s.machine with buffer_tail := (s.machine.buffer_tail + 1) % BUFFER_SIZE }
      pc := GetCharPc.test
      returned := s.returned ++ [c] }

/-- One run of `keyboard_isr`; the character is logged as enqueued when the guard of
line 74 lets the store happen. -/
def interrupt_step (scancode : Nat) (s : Interleaved) : Interleaved :=
  { s with
    machine := keyboard_isr scancode s.machine
    enqueued :=
      if scancode_to_char s.machine scancode ≠ 0 ∧ buffer_is_full s.machine = false then
        s.enqueued ++ [scancode_to_char s.machine scancode]
      else s.enqueued }

/-- The effect of one tick. -/
def tick_step (t : Tick) (s : Interleaved) : Interleaved :=
  match t with
  | Tick.interrupt scancode => interrupt_step scancode s
  | Tick.mainline => mainline_step s

/-- The state after a schedule of ticks. -/
def interleaved_run (ts : List Tick) (s : Interleaved) : Interleaved :=
  ts.foldl (fun s1 t => tick_step t s1) s

/-- What the proof of the interleaving keeps true: the indices are in range, the enqueued
characters are the returned ones followed by the unread ones, and past the emptiness test
the buffer is not empty, the character already read being the oldest unread one. -/
def interleaved_ok (s : Interleaved) : Prop :=
  ring_ok s.machine ∧ s.enqueued = s.returned ++ unread s.machine ∧
    match s.pc with
    | GetCharPc.test => True
    | GetCharPc.read => unread s.machine ≠ []
    | GetCharPc.update c => ∃ u, unread s.machine = c :: u

/-! # Theorems -/

/-! ## Ring buffer -/

theorem unread_length (m : Machine) :
    (unread m).length = (m.buffer_head + 128 - m.buffer_tail) % 128 := by
  simp [unread, BUFFER_SIZE]

theorem buffer_is_full_eq_false (m : Machine) (hok : ring_ok m)
    (h : (unread m).length < 127) : buffer_is_full m = false := by
  rw [unread_length] at h
  obtain ⟨hh, ht⟩ := hok
  simp only [BUFFER_SIZE] at hh ht
  simp only [buffer_is_full, BUFFER_SIZE, beq_eq_false_iff_ne, ne_eq]
  omega

theorem buffer_is_empty_of_unread_nil (m : Machine) (hok : ring_ok m)
    (h : unread m = []) : buffer_is_empty m = true := by
  have hl := unread_length m
  rw [h] at hl
  obtain ⟨hh, ht⟩ := hok
  simp only [BUFFER_SIZE] at hh ht
  simp only [buffer_is_empty, beq_iff_eq]
  simp only [List.length_nil] at hl
  omega

theorem buffer_is_empty_eq_false (m : Machine) (c : Nat) (rest : List Nat)
    (h : unread m = c :: rest) : buffer_is_empty m = false := by
  have hl := unread_length m
  rw [h] at hl
  simp only [buffer_is_empty, beq_eq_false_iff_ne, ne_eq]
  intro e
  rw [e] at hl
  simp at hl

/-- One guarded store appends its character to the unread ones when there is room. -/
theorem unread_push (m : Machine) (c : Nat) (hok : ring_ok m) (hc : c ≠ 0)
    (hroom : (unread m).length < 127) :
    unread (keyboard_isr_push c m) = unread m ++ [c] ∧ ring_ok (keyboard_isr_push c m) := by
  have hfull := buffer_is_full_eq_false m hok hroom
  rw [unread_length] at hroom
  obtain ⟨hh, ht⟩ := hok
  simp only [BUFFER_SIZE] at hh ht
  have e : ((m.buffer_head + 1) % 128 + 128 - m.buffer_tail) % 128
      = (m.buffer_head + 128 - m.buffer_tail) % 128 + 1 := by omega
  refine ⟨?_, ?_⟩
  · simp only [keyboard_isr_push, hc, hfull, ne_eq, not_false_eq_true, and_self, if_true,
      unread, BUFFER_SIZE]
    rw [e, List.range_succ, List.map_append]
    congr 1
    · apply List.map_congr_left
      intro i hi
      rw [List.mem_range] at hi
      have hne : (m.buffer_tail + i) % 128 ≠ m.buffer_head := by omega
      simp [store, hne]
    · have heq : (m.buffer_tail + (m.buffer_head + 128 - m.buffer_tail) % 128) % 128
          = m.buffer_head := by omega
      simp [store, heq]
  · simp only [keyboard_isr_push, hc, hfull, ne_eq, not_false_eq_true, and_self, if_true,
      ring_ok, BUFFER_SIZE]
    omega

theorem unread_push_all (cs : List Nat) (m : Machine) (hok : ring_ok m)
    (hnz : ∀ c ∈ cs, c ≠ 0) (hroom : (unread m).length + cs.length ≤ 127) :
    unread (push_all cs m) = unread m ++ cs ∧ ring_ok (push_all cs m) := by
  induction cs generalizing m with
  | nil => simpa [push_all] using hok
  | cons c cs ih =>
    have hc : c ≠ 0 := hnz c (List.mem_cons_self c cs)
    simp only [List.length_cons] at hroom
    obtain ⟨h1, h2⟩ := unread_push m c hok hc (by omega)
    have h3 := ih (keyboard_isr_push c m) h2
      (fun d hd => hnz d (List.mem_cons_of_mem c hd))
      (by rw [h1]; simp only [List.length_append, List.length_singleton]; omega)
    simp only [push_all, List.foldl_cons] at h3 ⊢
    rw [h1] at h3
    simpa using h3

theorem get_char_wait_of_not_empty (pending : List Nat) (m : Machine)
    (h : buffer_is_empty m = false) :
    get_char_wait pending m = some { m with keyboard := pending } := by
  cases pending <;> simp [get_char_wait, h]

/-- Reading the slot at `buffer_tail` and advancing `buffer_tail` takes the oldest unread
character off. -/
theorem pop_of_unread (m : Machine) (c : Nat) (rest : List Nat) (hok : ring_ok m)
    (h : unread m = c :: rest) :
    m.key_buffer m.buffer_tail = c ∧
      unread { m with buffer_tail := (m.buffer_tail + 1) % BUFFER_SIZE } = rest ∧
      ring_ok { m with buffer_tail := (m.buffer_tail + 1) % BUFFER_SIZE } := by
  have hl := unread_length m
  obtain ⟨hh, ht⟩ := hok
  simp only [BUFFER_SIZE] at hh ht
  rw [h, List.length_cons] at hl
  have hpos : (m.buffer_head + 128 - m.buffer_tail) % 128
      = (m.buffer_head + 128 - (m.buffer_tail + 1) % 128) % 128 + 1 := by omega
  simp only [unread, BUFFER_SIZE] at h
  rw [hpos, List.range_succ_eq_map, List.map_cons, List.map_map] at h
  simp only [List.cons.injEq, Nat.add_zero] at h
  obtain ⟨hc, hrest⟩ := h
  refine ⟨?_, ?_, ?_⟩
  · rw [Nat.mod_eq_of_lt ht] at hc
    exact hc
  · simp only [unread, BUFFER_SIZE]
    rw [← hrest]
    apply List.map_congr_left
    intro i _
    have e : ((m.buffer_tail + 1) % 128 + i) % 128 = (m.buffer_tail + (i + 1)) % 128 := by
      omega
    simp [e, Nat.succ_eq_add_one]
  · simp only [ring_ok, BUFFER_SIZE]
    omega

/-- With an unread character in the buffer `get_char` returns the oldest one at once and
only moves `buffer_tail`. -/
theorem get_char_of_unread (m : Machine) (c : Nat) (rest : List Nat) (hok : ring_ok m)
    (h : unread m = c :: rest) :
    get_char m = some (c, { m with buffer_tail := (m.buffer_tail + 1) % BUFFER_SIZE }) ∧
      unread { m with buffer_tail := (m.buffer_tail + 1) % BUFFER_SIZE } = rest ∧
      ring_ok { m with buffer_tail := (m.buffer_tail + 1) % BUFFER_SIZE } := by
  have hne := buffer_is_empty_eq_false m c rest h
  obtain ⟨h1, h2, h3⟩ := pop_of_unread m c rest hok h
  refine ⟨?_, h2, h3⟩
  simp only [get_char, get_char_wait_of_not_empty _ m hne]
  simp [h1]

theorem get_chars_of_unread (cs : List Nat) (m : Machine) (hok : ring_ok m)
    (h : unread m = cs) :
    ∃ m2, get_chars cs.length m = some (cs, m2) ∧ unread m2 = [] ∧ ring_ok m2 ∧
      m2.key_buffer = m.key_buffer ∧ m2.buffer_head = m.buffer_head := by
  induction cs generalizing m with
  | nil => exact ⟨m, rfl, h, hok, rfl, rfl⟩
  | cons c cs ih =>
    obtain ⟨h1, h2, h3⟩ := get_char_of_unread m c cs hok h
    obtain ⟨m2, h4, h5, h6, h7, h8⟩ := ih _ h3 h2
    refine ⟨m2, ?_, h5, h6, h7, h8⟩
    simp only [List.length_cons, get_chars, h1, h4]

/-- Claim C1.  From an empty ring buffer at any position (`buffer_head = buffer_tail`
anywhere in 0..127), after the push step of `keyboard_isr` has run for at most 126
non-NUL characters with no `get_char` in between, `buffer_is_full()` is false, and the next
calls of `get_char`, as many as there were characters, return exactly those characters in
the order they were pushed and leave the buffer empty. -/
theorem C1_fifo_after_pushes (m : Machine) (cs : List Nat)
    (hempty : m.buffer_head = m.buffer_tail) (hpos : m.buffer_head < 128)
    (hN : cs.length ≤ 126) (hnz : ∀ c ∈ cs, c ≠ 0) :
    buffer_is_full (push_all cs m) = false ∧
      ∃ m2, get_chars cs.length (push_all cs m) = some (cs, m2) ∧
        buffer_is_empty m2 = true := by
  have hok : ring_ok m := by
    simp only [ring_ok, BUFFER_SIZE]
    omega
  have hnil : unread m = [] := by
    simp [unread, hempty, BUFFER_SIZE]
  obtain ⟨h1, h2⟩ := unread_push_all cs m hok hnz (by rw [hnil]; simp only [List.length_nil]; omega)
  rw [hnil, List.nil_append] at h1
  refine ⟨buffer_is_full_eq_false _ h2 (by rw [h1]; omega), ?_⟩
  obtain ⟨m2, h3, h4, h5, _, _⟩ := get_chars_of_unread cs (push_all cs m) h2 h1
  exact ⟨m2, h3, buffer_is_empty_of_unread_nil m2 h5 h4⟩

/-- Claim C2.  When the ring buffer is full, `keyboard_isr` leaves `key_buffer`,
`buffer_head` and `buffer_tail` as they were, whatever scancode the data port yields: the
arriving character is dropped and no unread character is overwritten. -/
theorem C2_full_buffer_drops (m : Machine) (scancode : Nat)
    (hfull : (m.buffer_head + 1) % 128 = m.buffer_tail) :
    (keyboard_isr scancode m).key_buffer = m.key_buffer ∧
      (keyboard_isr scancode m).buffer_head = m.buffer_head ∧
      (keyboard_isr scancode m).buffer_tail = m.buffer_tail ∧
      unread (keyboard_isr scancode m) = unread m := by
  have h : buffer_is_full m = true := by
    simp [buffer_is_full, BUFFER_SIZE, hfull]
  simp [keyboard_isr, keyboard_isr_push, outb, h, unread]

/-- Witness of C1: three characters pushed at position 127, so that the head wraps. -/
theorem C1_fifo_after_pushes_witness :
    buffer_is_full
        (push_all [104, 105, 10] { boot with buffer_head := 127, buffer_tail := 127 }) = false ∧
      ∃ m2, get_chars 3
          (push_all [104, 105, 10] { boot with buffer_head := 127, buffer_tail := 127 })
            = some ([104, 105, 10], m2) ∧
        buffer_is_empty m2 = true :=
  C1_fifo_after_pushes { boot with buffer_head := 127, buffer_tail := 127 } [104, 105, 10]
    rfl (by decide) (by decide) (by decide)

/-- Witness of C2: a full buffer (head 5, tail 6) receiving the scancode of `a`. -/
theorem C2_full_buffer_drops_witness :
    (5 + 1) % 128 = 6 ∧
      (keyboard_isr 30 { boot with buffer_head := 5, buffer_tail := 6 }).key_buffer
        = boot.key_buffer ∧
      (keyboard_isr 30 { boot with buffer_head := 5, buffer_tail := 6 }).buffer_head = 5 ∧
      (keyboard_isr 30 { boot with buffer_head := 5, buffer_tail := 6 }).buffer_tail = 6 :=
  have h := C2_full_buffer_drops { boot with buffer_head := 5, buffer_tail := 6 } 30 rfl
  ⟨rfl, h.1, h.2.1, h.2.2.1⟩

/-! ## Terminal -/

theorem same_but_terminal_refl (m : Machine) : same_but_terminal m m :=
  ⟨rfl, rfl, rfl, rfl, rfl, rfl, rfl, rfl⟩

theorem same_but_terminal_trans {m m2 m3 : Machine} (h1 : same_but_terminal m m2)
    (h2 : same_but_terminal m2 m3) : same_but_terminal m m3 := by
  obtain ⟨a1, a2, a3, a4, a5, a6, a7, a8⟩ := h1
  obtain ⟨b1, b2, b3, b4, b5, b6, b7, b8⟩ := h2
  exact ⟨b1.trans a1, b2.trans a2, b3.trans a3, b4.trans a4, b5.trans a5, b6.trans a6,
    b7.trans a7, b8.trans a8⟩

theorem terminal_putchar_sink (c : Nat) (m : Machine) :
    (terminal_putchar c m).sink = m.sink ++ [c] := by
  simp only [terminal_putchar]
  split_ifs <;> rfl

theorem terminal_putchar_same (c : Nat) (m : Machine) :
    same_but_terminal m (terminal_putchar c m) := by
  simp only [terminal_putchar, same_but_terminal]
  split_ifs <;> exact ⟨rfl, rfl, rfl, rfl, rfl, rfl, rfl, rfl⟩

theorem putchars_sink (w : List Nat) (m : Machine) : (putchars w m).sink = m.sink ++ w := by
  induction w generalizing m with
  | nil => simp [putchars]
  | cons c w ih =>
    have h := ih (terminal_putchar c m)
    simp only [putchars, List.foldl_cons] at h ⊢
    rw [h, terminal_putchar_sink]
    simp

theorem putchars_same (w : List Nat) (m : Machine) : same_but_terminal m (putchars w m) := by
  induction w generalizing m with
  | nil => exact same_but_terminal_refl m
  | cons c w ih =>
    have h := ih (terminal_putchar c m)
    simp only [putchars, List.foldl_cons] at h ⊢
    exact same_but_terminal_trans (terminal_putchar_same c m) h

theorem terminal_writestring_loop_cstring (w : List Nat) (fuel : Nat) (data : Nat → Nat)
    (i : Nat) (m : Machine) (hw : cstring_from data i w) (hfuel : w.length < fuel) :
    terminal_writestring_loop fuel data i m = some (putchars w m) := by
  induction w generalizing fuel i m with
  | nil =>
    obtain ⟨f, rfl⟩ : ∃ f, fuel = f + 1 := ⟨fuel - 1, by omega⟩
    simp only [cstring_from] at hw
    simp [terminal_writestring_loop, hw, putchars]
  | cons c w ih =>
    obtain ⟨f, rfl⟩ : ∃ f, fuel = f + 1 := ⟨fuel - 1, by omega⟩
    obtain ⟨hc, hd, hrest⟩ := hw
    simp only [List.length_cons] at hfuel
    simp only [terminal_writestring_loop, hd, ne_eq, hc, not_false_eq_true, if_true]
    rw [ih f (i + 1) _ hrest (by omega)]
    simp [putchars]

/-- Writing a C string hands each of its characters to `terminal_putchar`, in order. -/
theorem terminal_writestring_cstring (w : List Nat) (fuel : Nat) (data : Nat → Nat)
    (m : Machine) (hw : cstring_from data 0 w) (hfuel : w.length < fuel) :
    terminal_writestring fuel data m = some (putchars w m) :=
  terminal_writestring_loop_cstring w fuel data 0 m hw hfuel

/-! ## String comparison -/

theorem strcmp_cstrings (w : List Nat) (l : List Nat) (fuel : Nat) (s1 s2 : Nat → Nat)
    (i : Nat) (h1 : cstring_from s1 i w) (h2 : cstring_from s2 i l) (hfuel : w.length < fuel) :
    ∃ r, strcmp fuel s1 s2 i = some r ∧ (r = 0 ↔ w = l) := by
  induction w generalizing l fuel i with
  | nil =>
    obtain ⟨f, rfl⟩ : ∃ f, fuel = f + 1 := ⟨fuel - 1, by omega⟩
    simp only [cstring_from] at h1
    cases l with
    | nil =>
      simp only [cstring_from] at h2
      exact ⟨0, by simp [strcmp, h1, h2], by simp⟩
    | cons d l =>
      obtain ⟨hd, h2d, _⟩ := h2
      refine ⟨-(d : Int), by simp [strcmp, h1, h2d], ?_⟩
      simp only [neg_eq_zero, Nat.cast_eq_zero, hd, false_iff]
      exact fun h => by cases h
  | cons c w ih =>
    obtain ⟨f, rfl⟩ : ∃ f, fuel = f + 1 := ⟨fuel - 1, by omega⟩
    obtain ⟨hc, h1c, h1rest⟩ := h1
    simp only [List.length_cons] at hfuel
    cases l with
    | nil =>
      simp only [cstring_from] at h2
      refine ⟨(c : Int), by simp [strcmp, h1c, h2, hc], ?_⟩
      simp only [Nat.cast_eq_zero, hc, false_iff]
      exact fun h => by cases h
    | cons d l =>
      obtain ⟨hd, h2d, h2rest⟩ := h2
      by_cases hcd : c = d
      · subst hcd
        obtain ⟨r, hr, hiff⟩ := ih l f (i + 1) h1rest h2rest (by omega)
        refine ⟨r, by simp [strcmp, h1c, h2d, hc, hr], ?_⟩
        simp [hiff]
      · refine ⟨(c : Int) - (d : Int), by simp [strcmp, h1c, h2d, hc, hcd], ?_⟩
        constructor
        · intro h
          exact absurd (by omega) hcd
        · intro h
          injection h with h _
          exact absurd h hcd

theorem bytes_echo : bytes "echo" = [101, 99, 104, 111] := by decide

theorem bytes_clear : bytes "clear" = [99, 108, 101, 97, 114] := by decide

theorem bytes_unknown :
    bytes "Unknown command: " =
      [85, 110, 107, 110, 111, 119, 110, 32, 99, 111, 109, 109, 97, 110, 100, 58, 32] := by
  decide

theorem cstring_literal_echo : cstring_from (literal "echo") 0 (bytes "echo") := by
  simp [cstring_from, literal, bytes_echo]

theorem cstring_literal_clear : cstring_from (literal "clear") 0 (bytes "clear") := by
  simp [cstring_from, literal, bytes_clear]

theorem cstring_literal_unknown :
    cstring_from (literal "Unknown command: ") 0 (bytes "Unknown command: ") := by
  simp [cstring_from, literal, bytes_unknown]

/-! ## Command dispatcher -/

theorem cstring_from_deref (m : Machine) (p : Nat) (w : List Nat) (i : Nat) :
    cstring_from (deref m p) i w ↔ cstring_from m.input_buffer (p + i) w := by
  induction w generalizing i with
  | nil => simp [cstring_from, deref]
  | cons c w ih =>
    simp only [cstring_from, ih (i + 1)]
    simp [deref, Nat.add_assoc]

theorem deref_congr (m m2 : Machine) (p : Nat) (h : m2.input_buffer = m.input_buffer) :
    deref m2 p = deref m p := by
  unfold deref
  rw [h]

/-- The `else` branch of `execute_command`: a first argument that is neither `echo` nor
`clear` is reported, character by character. -/
theorem execute_command_unknown (m : Machine) (argv : Nat → Option Nat) (p : Nat)
    (w : List Nat) (fuel : Nat) (h0 : argv 0 = some p) (hw0 : cstring_from m.input_buffer p w)
    (hecho : w ≠ bytes "echo") (hclear : w ≠ bytes "clear") (hfuel : max w.length 17 < fuel) :
    execute_command fuel argv m
      = some (terminal_putchar 10 (putchars w (putchars (bytes "Unknown command: ") m))) := by
  have hw : cstring_from (deref m p) 0 w := (cstring_from_deref m p w 0).mpr hw0
  have hf1 : w.length < fuel := lt_of_le_of_lt (le_max_left _ _) hfuel
  have hf2 : 17 < fuel := lt_of_le_of_lt (le_max_right _ _) hfuel
  obtain ⟨r1, hr1, hi1⟩ := strcmp_cstrings w (bytes "echo") fuel (deref m p) (literal "echo") 0
    hw cstring_literal_echo hf1
  obtain ⟨r2, hr2, hi2⟩ := strcmp_cstrings w (bytes "clear") fuel (deref m p) (literal "clear")
    0 hw cstring_literal_clear hf1
  have hn1 : r1 ≠ 0 := fun h => hecho (hi1.mp h)
  have hn2 : r2 ≠ 0 := fun h => hclear (hi2.mp h)
  have hlen : (bytes "Unknown command: ").length < fuel := by
    rw [bytes_unknown]
    simpa using hf2
  have hw1 := terminal_writestring_cstring (bytes "Unknown command: ") fuel
    (literal "Unknown command: ") m cstring_literal_unknown hlen
  have hsame := putchars_same (bytes "Unknown command: ") m
  have hd := deref_congr m (putchars (bytes "Unknown command: ") m) p hsame.1
  have hw2 := terminal_writestring_cstring w fuel
    (deref (putchars (bytes "Unknown command: ") m) p) (putchars (bytes "Unknown command: ") m)
    (by rw [hd]; exact hw) hf1
  simp only [execute_command, h0, hr1, hn1, if_false, hr2, hn2, hw1, hw2]

/-- Claim C9.  When `argv[0]` is a string other than `echo` and `clear`, byte for byte,
`execute_command` returns and has handed to the output sink exactly `Unknown command: `,
then the characters of `argv[0]`, then one newline; nothing but the terminal changes. -/
theorem C9_unknown_command (m : Machine) (argv : Nat → Option Nat) (p : Nat) (w : List Nat)
    (fuel : Nat) (h0 : argv 0 = some p) (hw : cstring_from m.input_buffer p w)
    (hecho : w ≠ bytes "echo") (hclear : w ≠ bytes "clear") (hfuel : max w.length 17 < fuel) :
    ∃ m2, execute_command fuel argv m = some m2 ∧
      m2.sink = m.sink ++ bytes "Unknown command: " ++ w ++ [10] ∧ same_but_terminal m m2 := by
  refine ⟨_, execute_command_unknown m argv p w fuel h0 hw hecho hclear hfuel, ?_, ?_⟩
  · rw [terminal_putchar_sink, putchars_sink, putchars_sink]
  · exact same_but_terminal_trans
      (same_but_terminal_trans (putchars_same _ m) (putchars_same w _))
      (terminal_putchar_same 10 _)

/-- Witness of C9: `argv[0]` is `echoes`, which only starts like a known command. -/
theorem C9_unknown_command_witness :
    ∃ m2, execute_command 18 (fun i => if i = 0 then some 0 else none)
        { boot with input_buffer := fun i => [101, 99, 104, 111, 101, 115].getD i 0 } = some m2 ∧
      m2.sink = boot.sink ++ bytes "Unknown command: " ++ [101, 99, 104, 111, 101, 115] ++ [10] ∧
      same_but_terminal
        { boot with input_buffer := fun i => [101, 99, 104, 111, 101, 115].getD i 0 } m2 :=
  C9_unknown_command
    { boot with input_buffer := fun i => [101, 99, 104, 111, 101, 115].getD i 0 }
    (fun i => if i = 0 then some 0 else none) 0 [101, 99, 104, 111, 101, 115] 18 rfl
    (by simp [cstring_from]) (by decide) (by decide) (by decide)

/-! ## Empty line and backspace at the start of a line -/

/-- Claim C3 (evaluation of the code).  On a line whose first byte is NUL the first `strtok`
call returns the line itself, an empty token, not `NULL`: `parse_input` stores that pointer
in `argv[0]` and the terminator in `argv[1]` and ends with `argc = 1`.  The dispatcher, run
on this vector as the guard of `shell` allows, reports an unknown command with an empty
name. -/
theorem C3_empty_line_yields_empty_token (m : Machine) (argv : Nat → Option Nat) (fuel : Nat)
    (h : m.input_buffer 0 = 0) (hfuel : 17 < fuel) :
    ∃ argv1 m1 m2, parse_input fuel (some 0) argv m = some (argv1, 1, m1) ∧
      argv1 0 = some 0 ∧ argv1 1 = none ∧ m1.input_buffer = m.input_buffer ∧
      execute_command fuel argv1 m1 = some m2 ∧
      m2.sink = m.sink ++ bytes "Unknown command: " ++ [10] := by
  obtain ⟨f, rfl⟩ : ∃ f, fuel = f + 2 := ⟨fuel - 2, by omega⟩
  have hp : parse_input (f + 2) (some 0) argv m
      = some (store (store argv 0 (some 0)) 1 none, 1, { m with last := none }) := by
    simp [parse_input, strtok, strtok_scan, parse_input_loop, h, MAX_ARGS]
  have hw : cstring_from ({ m with last := none } : Machine).input_buffer 0 [] := by
    simp [cstring_from, h]
  have hx := execute_command_unknown { m with last := none }
    (store (store argv 0 (some 0)) 1 none) 0 [] (f + 2) (by simp [store]) hw (by decide)
    (by decide) (by simp only [List.length_nil]; omega)
  refine ⟨_, _, _, hp, by simp [store], by simp [store], rfl, hx, ?_⟩
  rw [terminal_putchar_sink, putchars_sink, putchars_sink]
  simp

/-- Witness of C3: the state right after boot, where `input_buffer` is all zero. -/
theorem C3_empty_line_yields_empty_token_witness :
    ∃ argv1 m1 m2, parse_input 18 (some 0) (fun _ => none) boot = some (argv1, 1, m1) ∧
      argv1 0 = some 0 ∧ argv1 1 = none ∧ m1.input_buffer = boot.input_buffer ∧
      execute_command 18 argv1 m1 = some m2 ∧
      m2.sink = boot.sink ++ bytes "Unknown command: " ++ [10] :=
  C3_empty_line_yields_empty_token boot (fun _ => none) 18 rfl (by decide)

/-- One turn of the shell when only Enter is pressed after boot: the guard of `shell` lets
the empty token through and the terminal shows the prompt and an unknown-command notice
with an empty name. -/
theorem shell_turn_on_enter_only :
    (shell_turn 20 (fun _ => none) { boot with keyboard := [28] }).map (fun m => m.sink)
      = some (bytes "> Unknown command: " ++ [10]) := by
  decide

/-- Claim C4 (evaluation of the code).  With the in-progress line empty (`index` 0) a
backspace fails the test `c == '\b' && index > 0` and falls into the branch for ordinary
characters: the body of the loop stores the byte 8 in `input_buffer[0]`, raises `index` to 1
and hands the byte to `terminal_putchar`. -/
theorem C4_backspace_on_empty_line_is_stored (m : Machine) :
    ∃ m2, read_input_body 8 0 m = (false, 1, m2) ∧ m2.input_buffer 0 = 8 ∧
      m2.sink = m.sink ++ [8] := by
  refine ⟨terminal_putchar 8 { m with input_buffer := store m.input_buffer 0 8 }, ?_, ?_, ?_⟩
  · simp [read_input_body, MAX_INPUT_SIZE]
  · rw [(terminal_putchar_same 8 _).1]
    simp [store]
  · rw [terminal_putchar_sink]

/-! ## Clearing the screen -/

theorem terminal_initialize_fill_row (y n : Nat) (my : Machine) :
    (List.range n).foldl
        (fun mx x =>
          { mx with
            terminal_buffer :=
              store mx.terminal_buffer (y * VGA_WIDTH + x) (vga_entry 32 mx.terminal_color) })
        my
      = { my with
          terminal_buffer := fun i =>
            if y * VGA_WIDTH ≤ i ∧ i < y * VGA_WIDTH + n then vga_entry 32 my.terminal_color
            else my.terminal_buffer i } := by
  induction n with
  | zero =>
    cases my
    simp only [List.range_zero, List.foldl_nil, Machine.mk.injEq, true_and, and_true]
    funext i
    have : ¬ (y * VGA_WIDTH ≤ i ∧ i < y * VGA_WIDTH + 0) := by omega
    simp only [this, if_false]
  | succ n ih =>
    rw [List.range_succ, List.foldl_append, ih]
    simp only [List.foldl_cons, List.foldl_nil, Machine.mk.injEq, true_and, and_true]
    funext i
    simp only [store]
    split_ifs <;> first | rfl | omega

theorem terminal_initialize_fill_rows (n : Nat) (m : Machine) :
    (List.range n).foldl
        (fun my y =>
          (List.range VGA_WIDTH).foldl
            (fun mx x =>
              { mx with
                terminal_buffer :=
                  store mx.terminal_buffer (y * VGA_WIDTH + x) (vga_entry 32 mx.terminal_color) })
            my)
        m
      = { m with
          terminal_buffer := fun i =>
            if i < n * VGA_WIDTH then vga_entry 32 m.terminal_color else m.terminal_buffer i } := by
  induction n with
  | zero =>
    cases m
    simp
  | succ n ih =>
    rw [List.range_succ, List.foldl_append, ih]
    simp only [List.foldl_cons, List.foldl_nil, terminal_initialize_fill_row, Machine.mk.injEq,
      true_and, and_true]
    funext i
    simp only [VGA_WIDTH]
    split_ifs <;> first | rfl | omega

/-- Effect of `terminal_initialize`: the first 80*25 cells are blank, the cursor is at the
origin, the colour is light grey on black, everything else is as before. -/
theorem terminal_initialize_eq (m : Machine) :
    terminal_initialize m
      = { m with
          terminal_row := 0
          terminal_column := 0
          terminal_color := 7
          terminal_buffer := fun i => if i < 2000 then 1824 else m.terminal_buffer i } := by
  have hcolor : vga_entry_color VGA_COLOR_LIGHT_GREY VGA_COLOR_BLACK = 7 := by decide
  have hcell : vga_entry 32 7 = 1824 := by decide
  rw [ terminal_initialize, terminal_initialize_fill, terminal_initialize_fill_rows]
  simp only [hcolor, hcell, VGA_HEIGHT, VGA_WIDTH, Nat.reduceMul]

/-- Claim C10.  `execute_command` with `argv[0]` equal to `clear` returns, and afterwards
each of the 80*25 = 2000 screen cells holds 0x0720 (a space, light grey on black) and the
cursor is at row 0, column 0, whatever the terminal held before; `key_buffer`,
`buffer_head`, `buffer_tail` and `input_buffer` are unchanged. -/
theorem C10_clear_blanks_screen (m : Machine) (argv : Nat → Option Nat) (p : Nat) (fuel : Nat)
    (h0 : argv 0 = some p) (hw0 : cstring_from m.input_buffer p (bytes "clear"))
    (hfuel : 5 < fuel) :
    ∃ m2, execute_command fuel argv m = some m2 ∧
      (∀ i, i < 80 * 25 → m2.terminal_buffer i = 0x0720) ∧
      m2.terminal_row = 0 ∧ m2.terminal_column = 0 ∧
      m2.key_buffer = m.key_buffer ∧ m2.buffer_head = m.buffer_head ∧
      m2.buffer_tail = m.buffer_tail ∧ m2.input_buffer = m.input_buffer := by
  have hw : cstring_from (deref m p) 0 (bytes "clear") := (cstring_from_deref m p _ 0).mpr hw0
  have hlen : (bytes "clear").length < fuel := by
    rw [bytes_clear]
    simpa using hfuel
  obtain ⟨r1, hr1, hi1⟩ := strcmp_cstrings (bytes "clear") (bytes "echo") fuel (deref m p)
    (literal "echo") 0 hw cstring_literal_echo hlen
  obtain ⟨r2, hr2, hi2⟩ := strcmp_cstrings (bytes "clear") (bytes "clear") fuel (deref m p)
    (literal "clear") 0 hw cstring_literal_clear hlen
  have hn1 : r1 ≠ 0 := fun h => absurd (hi1.mp h) (by decide)
  have hz2 : r2 = 0 := hi2.mpr rfl
  refine ⟨ terminal_initialize m, ?_, ?_⟩
  · simp only [execute_command, h0, hr1, hn1, if_false, hr2, hz2, if_true]
  · rw [terminal_initialize_eq]
    refine ⟨?_, rfl, rfl, rfl, rfl, rfl, rfl⟩
    intro i hi
    simp only [Nat.reduceMul] at hi
    simp [hi]

/-- Witness of C10: `clear` typed into a terminal that is in the middle of row 3, with two
unread keys in the ring buffer. -/
theorem C10_clear_blanks_screen_witness :
    ∃ m2, execute_command 6 (fun i => if i = 0 then some 0 else none)
        { boot with
          input_buffer := fun i => [99, 108, 101, 97, 114].getD i 0
          terminal_row := 3
          terminal_column := 41
          buffer_head := 2 } = some m2 ∧
      (∀ i, i < 80 * 25 → m2.terminal_buffer i = 0x0720) ∧
      m2.terminal_row = 0 ∧ m2.terminal_column = 0 ∧
      m2.key_buffer = boot.key_buffer ∧ m2.buffer_head = 2 ∧
      m2.buffer_tail = 0 ∧ m2.input_buffer = fun i => [99, 108, 101, 97, 114].getD i 0 :=
  C10_clear_blanks_screen
    { boot with
      input_buffer := fun i => [99, 108, 101, 97, 114].getD i 0
      terminal_row := 3
      terminal_column := 41
      buffer_head := 2 }
    (fun i => if i = 0 then some 0 else none) 0 6 rfl
    (by simp [cstring_from, bytes_clear]) (by decide)

/-! ## Line reader -/

theorem same_but_keyboard_refl (m : Machine) : same_but_keyboard m m :=
  ⟨rfl, rfl, rfl, rfl, rfl, rfl, rfl, rfl⟩

theorem same_but_keyboard_trans {m m2 m3 : Machine} (h1 : same_but_keyboard m m2)
    (h2 : same_but_keyboard m2 m3) : same_but_keyboard m m3 := by
  obtain ⟨a1, a2, a3, a4, a5, a6, a7, a8⟩ := h1
  obtain ⟨b1, b2, b3, b4, b5, b6, b7, b8⟩ := h2
  exact ⟨b1.trans a1, b2.trans a2, b3.trans a3, b4.trans a4, b5.trans a5, b6.trans a6,
    b7.trans a7, b8.trans a8⟩

theorem scancode_to_char_congr (m m2 : Machine)
    (h : m2.scancode_map_overrun = m.scancode_map_overrun) :
    scancode_to_char m2 = scancode_to_char m := by
  funext sc
  simp only [scancode_to_char, h]

/-- The list of incoming characters only depends on the ring buffer and on the bytes
behind `scancode_map`. -/
theorem incoming_from_congr (pending : List Nat) (m m2 : Machine)
    (hk : m2.key_buffer = m.key_buffer) (hh : m2.buffer_head = m.buffer_head)
    (ht : m2.buffer_tail = m.buffer_tail)
    (ho : m2.scancode_map_overrun = m.scancode_map_overrun) :
    incoming_from pending m2 = incoming_from pending m := by
  simp only [incoming_from, unread, hk, hh, ht, scancode_to_char_congr m m2 ho]

theorem unread_nil_of_empty (m : Machine) (h : buffer_is_empty m = true) : unread m = [] := by
  simp only [buffer_is_empty, beq_iff_eq] at h
  simp [unread, h, BUFFER_SIZE]

/-- The spin of `get_char` ends with a non-empty buffer and does not change what is
incoming, as long as a character is incoming at all. -/
theorem get_char_wait_incoming (pending : List Nat) (m : Machine) (c : Nat) (rest : List Nat)
    (hok : ring_ok m) (h : incoming_from pending m = c :: rest) :
    ∃ m1, get_char_wait pending m = some m1 ∧ ring_ok m1 ∧ incoming m1 = c :: rest ∧
      buffer_is_empty m1 = false ∧ same_but_keyboard m m1 := by
  induction pending generalizing m with
  | nil =>
    by_cases he : buffer_is_empty m = true
    · rw [incoming_from, unread_nil_of_empty m he] at h
      simp at h
    · simp only [Bool.not_eq_true] at he
      exact ⟨{ m with keyboard := [] }, by simp [get_char_wait, he], hok, h, he,
        same_but_keyboard_refl m⟩
  | cons sc ps ih =>
    by_cases he : buffer_is_empty m = true
    · have hnil := unread_nil_of_empty m he
      have hroom : (unread m).length < 127 := by simp [hnil]
      have hstep : incoming_from ps (keyboard_isr sc m) = c :: rest ∧
          ring_ok (keyboard_isr sc m) ∧ same_but_keyboard m (keyboard_isr sc m) := by
        by_cases hz : scancode_to_char m sc = 0
        · have hm : keyboard_isr sc m = outb 0x20 0x20 m := by
            simp [keyboard_isr, keyboard_isr_push, hz]
          rw [hm]
          refine ⟨?_, hok, same_but_keyboard_refl m⟩
          rw [incoming_from_congr ps m (outb 0x20 0x20 m) rfl rfl rfl rfl]
          simpa [incoming_from, hz] using h
        · obtain ⟨h1, h2⟩ := unread_push m (scancode_to_char m sc) hok hz hroom
          have hfull := buffer_is_full_eq_false m hok hroom
          have hsame : same_but_keyboard m (keyboard_isr_push (scancode_to_char m sc) m) := by
            simp only [keyboard_isr_push, hz, hfull, ne_eq, not_false_eq_true, and_self,
              if_true]
            exact ⟨rfl, rfl, rfl, rfl, rfl, rfl, rfl, rfl⟩
          refine ⟨?_, h2, hsame⟩
          have hc := incoming_from_congr ps (keyboard_isr_push (scancode_to_char m sc) m)
            (keyboard_isr sc m) rfl rfl rfl rfl
          rw [hc]
          simp only [incoming_from, h1, scancode_to_char_congr m _ hsame.2.2.2.2.2.2.1]
          simpa [incoming_from, hnil, hz] using h
      obtain ⟨m1, g1, g2, g3, g4, g5⟩ := ih (keyboard_isr sc m) hstep.2.1 hstep.1
      exact ⟨m1, by simp [get_char_wait, he, g1], g2, g3, g4,
        same_but_keyboard_trans hstep.2.2 g5⟩
    · simp only [Bool.not_eq_true] at he
      exact ⟨{ m with keyboard := sc :: ps }, by simp [get_char_wait, he], hok, h, he,
        same_but_keyboard_refl m⟩

/-- A call of `get_char` returns the first incoming character and leaves the others
incoming. -/
theorem get_char_incoming (m : Machine) (c : Nat) (rest : List Nat) (hok : ring_ok m)
    (h : incoming m = c :: rest) :
    ∃ m2, get_char m = some (c, m2) ∧ ring_ok m2 ∧ incoming m2 = rest ∧
      same_but_keyboard m m2 := by
  obtain ⟨m1, g1, g2, g3, g4, g5⟩ := get_char_wait_incoming m.keyboard m c rest hok h
  have hne : unread m1 ≠ [] := by
    intro hnil
    have := buffer_is_empty_of_unread_nil m1 g2 hnil
    rw [g4] at this
    cases this
  obtain ⟨d, u, hu⟩ := List.exists_cons_of_ne_nil hne
  have hd : d = c ∧ u ++ (m1.keyboard.map (scancode_to_char m1)).filter (fun c => c ≠ 0) = rest := by
    simp only [incoming, incoming_from, hu, List.cons_append, List.cons.injEq] at g3
    exact g3
  obtain ⟨p1, p2, p3⟩ := pop_of_unread m1 d u g2 hu
  refine ⟨{ m1 with buffer_tail := (m1.buffer_tail + 1) % BUFFER_SIZE }, ?_, p3, ?_, ?_⟩
  · simp only [get_char, g1, p1, hd.1]
  · rw [← hd.2]
    simp only [incoming, incoming_from, p2]
    rfl
  · exact same_but_keyboard_trans g5 ⟨rfl, rfl, rfl, rfl, rfl, rfl, rfl, rfl⟩

theorem incoming_congr (m m2 : Machine) (hk : m2.key_buffer = m.key_buffer)
    (hh : m2.buffer_head = m.buffer_head) (ht : m2.buffer_tail = m.buffer_tail)
    (ho : m2.scancode_map_overrun = m.scancode_map_overrun) (hkb : m2.keyboard = m.keyboard) :
    incoming m2 = incoming m := by
  simp only [incoming, hkb]
  exact incoming_from_congr _ m m2 hk hh ht ho

theorem ring_ok_congr (m m2 : Machine) (hh : m2.buffer_head = m.buffer_head)
    (ht : m2.buffer_tail = m.buffer_tail) (hok : ring_ok m) : ring_ok m2 := by
  simpa only [ring_ok, hh, ht] using hok

/-- The loop of `read_input` on characters that are neither newline, carriage return nor
backspace, followed by a newline, started at any `index` up to 255. -/
theorem read_input_loop_plain (cs : List Nat) (rest : List Nat) (fuel index : Nat)
    (m : Machine) (hok : ring_ok m) (hin : incoming m = cs ++ 10 :: rest)
    (hplain : ∀ c ∈ cs, c ≠ 10 ∧ c ≠ 13 ∧ c ≠ 8) (hfuel : cs.length < fuel)
    (hindex : index ≤ 255) :
    ∃ m2, read_input_loop fuel index m = some m2 ∧ ring_ok m2 ∧ incoming m2 = rest ∧
      ∀ j, m2.input_buffer j =
        if j < index then m.input_buffer j
        else if j < min (index + cs.length) 255 then cs.getD (j - index) 0
        else if j = min (index + cs.length) 255 then 0
        else m.input_buffer j := by
  induction cs generalizing fuel index m with
  | nil =>
    obtain ⟨f, rfl⟩ : ∃ f, fuel = f + 1 := ⟨fuel - 1, by omega⟩
    obtain ⟨m1, g1, g2, g3, g4⟩ := get_char_incoming m 10 rest hok (by simpa using hin)
    refine ⟨{ m1 with input_buffer := store m1.input_buffer index 0 }, ?_, g2, g3, ?_⟩
    · simp [read_input_loop, g1, read_input_body]
    · intro j
      simp only [g4.1, store, List.length_nil, Nat.add_zero]
      split_ifs <;> first | rfl | omega
  | cons c cs ih =>
    obtain ⟨f, rfl⟩ : ∃ f, fuel = f + 1 := ⟨fuel - 1, by omega⟩
    simp only [List.length_cons] at hfuel
    obtain ⟨m1, g1, g2, g3, g4⟩ := get_char_incoming m c (cs ++ 10 :: rest) hok
      (by simpa using hin)
    obtain ⟨c10, c13, c8⟩ := hplain c (List.mem_cons_self c cs)
    have hplain2 : ∀ d ∈ cs, d ≠ 10 ∧ d ≠ 13 ∧ d ≠ 8 :=
      fun d hd => hplain d (List.mem_cons_of_mem c hd)
    by_cases hlt : index < 255
    · have hs := terminal_putchar_same c { m1 with input_buffer := store m1.input_buffer index c }
      obtain ⟨s1, s2, s3, s4, _, s6, s7, _⟩ := hs
      obtain ⟨m2, k1, k2, k3, k4⟩ := ih f (index + 1)
        (terminal_putchar c { m1 with input_buffer := store m1.input_buffer index c })
        (ring_ok_congr m1 _ s3 s4 g2)
        (by rw [incoming_congr m1 _ s2 s3 s4 s6 s7]; exact g3) hplain2 (by omega) (by omega)
      refine ⟨m2, ?_, k2, k3, ?_⟩
      · simp [read_input_loop, g1, read_input_body, c10, c13, c8, hlt, MAX_INPUT_SIZE, k1]
      · intro j
        rw [k4 j, s1]
        simp only [g4.1, store, List.length_cons]
        by_cases hj : j < index + 1
        · by_cases hj2 : j = index
          · subst hj2
            have h255 : j < min (j + (cs.length + 1)) 255 := by omega
            simp [h255]
          · have hj3 : j < index := by omega
            simp [hj, hj2, hj3]
        · obtain ⟨k, rfl⟩ : ∃ k, j = index + 1 + k := ⟨j - (index + 1), by omega⟩
          have e1 : index + 1 + k - (index + 1) = k := by omega
          have e2 : index + 1 + k - index = k + 1 := by omega
          have e3 : ¬ (index + 1 + k < index) := by omega
          have e4 : ¬ (index + 1 + k = index) := by omega
          have e5 : index + 1 + cs.length = index + (cs.length + 1) := by omega
          simp only [hj, e1, e2, e3, e4, e5, if_false, List.getD_cons_succ]
    · have h255 : index = 255 := by omega
      subst h255
      obtain ⟨m2, k1, k2, k3, k4⟩ := ih f 255 m1 g2 g3 hplain2 (by omega) (by omega)
      refine ⟨m2, ?_, k2, k3, ?_⟩
      · simp [read_input_loop, g1, read_input_body, c10, c13, c8, MAX_INPUT_SIZE, k1]
      · intro j
        rw [k4 j, g4.1]
        simp only [List.length_cons]
        have e1 : min (255 + cs.length) 255 = 255 := by omega
        have e2 : min (255 + (cs.length + 1)) 255 = 255 := by omega
        simp only [e1, e2]
        split_ifs <;> rfl

/-- The line `read_input` assembles from characters that are neither newline, carriage
return nor backspace, followed by a newline. -/
theorem read_input_plain (m : Machine) (cs rest : List Nat) (fuel : Nat)
    (hok : ring_ok m) (hin : incoming m = cs ++ 10 :: rest)
    (hplain : ∀ c ∈ cs, c ≠ 10 ∧ c ≠ 13 ∧ c ≠ 8) (hfuel : cs.length < fuel) :
    ∃ m2, read_input fuel m = some m2 ∧
      (List.range (min cs.length 255)).map m2.input_buffer = cs.take 255 ∧
      m2.input_buffer (min cs.length 255) = 0 ∧
      (∀ j, min cs.length 255 < j → m2.input_buffer j = m.input_buffer j) ∧
      incoming m2 = rest := by
  obtain ⟨m2, k1, _, k3, k4⟩ := read_input_loop_plain cs rest fuel 0 m hok hin hplain hfuel
    (by omega)
  simp only [Nat.not_lt_zero, if_false, Nat.zero_add, Nat.sub_zero] at k4
  refine ⟨m2, k1, ?_, ?_, ?_, k3⟩
  · apply List.ext_getElem
    · simp [List.length_take, Nat.min_comm]
    · intro n h1 h2
      simp only [List.length_map, List.length_range] at h1
      simp only [List.getElem_map, List.getElem_range, List.getElem_take, k4 n, h1, if_true]
      exact List.getD_eq_getElem cs 0 (by omega)
  · simp [k4]
  · intro j hj
    have e1 : ¬ (j < min cs.length 255) := by omega
    have e2 : ¬ (j = min cs.length 255) := by omega
    simp [k4, e1, e2]

/-- Claim C5.  When the characters `get_char` is going to return are `k` characters, none
of them newline, carriage return or backspace, followed by a newline (and by anything
else, `rest`), `read_input` returns and `input_buffer` then holds exactly the first
`min k 255` of those characters followed by the NUL terminator; every later byte, in
particular every one above index 255, is as it was; the `k` characters and the newline have
been consumed and `rest` is what remains incoming.  For `k = 300` this is 255 characters and
the terminator at index 255. -/
theorem C5_read_input_truncates (m : Machine) (cs rest : List Nat) (fuel : Nat)
    (hok : ring_ok m) (hin : incoming m = cs ++ 10 :: rest)
    (hplain : ∀ c ∈ cs, c ≠ 10 ∧ c ≠ 13 ∧ c ≠ 8) (hfuel : cs.length < fuel) :
    ∃ m2, read_input fuel m = some m2 ∧
      (List.range (min cs.length 255)).map m2.input_buffer = cs.take 255 ∧
      m2.input_buffer (min cs.length 255) = 0 ∧
      (∀ j, min cs.length 255 < j → m2.input_buffer j = m.input_buffer j) ∧
      incoming m2 = rest :=
  read_input_plain m cs rest fuel hok hin hplain hfuel

set_option maxRecDepth 100000 in
/-- Witness of C5: 300 presses of the key `a` and then Enter, from the state after boot;
the line keeps 255 of them and the terminator sits at index 255. -/
theorem C5_read_input_truncates_witness :
    ∃ m2, read_input 301 { boot with keyboard := List.replicate 300 30 ++ [28] } = some m2 ∧
      (List.range 255).map m2.input_buffer = List.replicate 255 97 ∧
      m2.input_buffer 255 = 0 ∧
      (∀ j, 255 < j → m2.input_buffer j = boot.input_buffer j) ∧
      incoming m2 = [] :=
  C5_read_input_truncates { boot with keyboard := List.replicate 300 30 ++ [28] }
    (List.replicate 300 97) [] 301 (by decide) (by decide) (by decide) (by decide)

/-! ## Tokenizer -/

theorem bytes_space : bytes " " = [32] := by decide

theorem cstring_from_iff (buf : Nat → Nat) (q : Nat) (w : List Nat) :
    cstring_from buf q w ↔ chars_at buf q w ∧ buf (q + w.length) = 0 := by
  induction w generalizing q with
  | nil => simp [cstring_from, chars_at]
  | cons c w ih =>
    simp only [cstring_from, chars_at, ih (q + 1), List.length_cons]
    have e : q + 1 + w.length = q + (w.length + 1) := by omega
    rw [e]
    tauto

theorem cstring_from_append (buf : Nat → Nat) (q : Nat) (a b : List Nat) :
    cstring_from buf q (a ++ b) ↔ chars_at buf q a ∧ cstring_from buf (q + a.length) b := by
  induction a generalizing q with
  | nil => simp [chars_at]
  | cons c a ih =>
    have e : q + 1 + a.length = q + (a.length + 1) := by omega
    rw [List.cons_append]
    simp only [cstring_from, chars_at, List.length_cons]
    rw [ih (q + 1), e]
    tauto

theorem chars_at_congr (buf buf2 : Nat → Nat) (q : Nat) (w : List Nat)
    (h : ∀ j, q ≤ j → j < q + w.length → buf2 j = buf j) (hw : chars_at buf q w) :
    chars_at buf2 q w := by
  induction w generalizing q with
  | nil => trivial
  | cons c w ih =>
    obtain ⟨h1, h2, h3⟩ := hw
    simp only [List.length_cons] at h
    refine ⟨h1, ?_, ih (q + 1) (fun j hj1 hj2 => h j (by omega) (by omega)) h3⟩
    rw [h q (by omega) (by omega)]
    exact h2

theorem cstring_from_congr (buf buf2 : Nat → Nat) (q : Nat) (w : List Nat)
    (h : ∀ j, q ≤ j → j ≤ q + w.length → buf2 j = buf j) (hw : cstring_from buf q w) :
    cstring_from buf2 q w := by
  rw [cstring_from_iff] at hw ⊢
  refine ⟨chars_at_congr buf buf2 q w (fun j h1 h2 => h j h1 (by omega)) hw.1, ?_⟩
  rw [h _ (by omega) (by omega)]
  exact hw.2

/-- The scan of `strtok` over a piece without a space: at the NUL it returns the token and
clears the cursor, at a space it overwrites the space with NUL and parks the cursor behind
it. -/
theorem strtok_scan_piece (w : List Nat) (fuel token last : Nat) (m : Machine)
    (hfree : 32 ∉ w) (hw : chars_at m.input_buffer last w) (hfuel : w.length < fuel) :
    (m.input_buffer (last + w.length) = 0 →
        strtok_scan fuel [32] token last m = some (some token, { m with last := none })) ∧
      (m.input_buffer (last + w.length) = 32 →
        strtok_scan fuel [32] token last m
          = some (some token,
              { m with
                input_buffer := store m.input_buffer (last + w.length) 0
                last := some (last + w.length + 1) })) := by
  induction w generalizing last fuel with
  | nil =>
    obtain ⟨f, rfl⟩ : ∃ f, fuel = f + 1 := ⟨fuel - 1, by omega⟩
    constructor
    · intro h
      simp only [List.length_nil, Nat.add_zero] at h
      simp [strtok_scan, h]
    · intro h
      simp only [List.length_nil, Nat.add_zero] at h
      simp [strtok_scan, h]
  | cons c w ih =>
    obtain ⟨f, rfl⟩ : ∃ f, fuel = f + 1 := ⟨fuel - 1, by omega⟩
    obtain ⟨h1, h2, h3⟩ := hw
    simp only [List.length_cons] at hfuel
    have hc : c ≠ 32 := fun e => hfree (by simp [e])
    have hfree2 : 32 ∉ w := fun e => hfree (List.mem_cons_of_mem c e)
    have e : last + (c :: w).length = last + 1 + w.length := by
      simp only [List.length_cons]
      omega
    obtain ⟨i1, i2⟩ := ih f (last + 1) hfree2 h3 (by omega)
    rw [e]
    constructor
    · intro h
      simp [strtok_scan, h2, h1, hc, i1 h]
    · intro h
      simp [strtok_scan, h2, h1, hc, i2 h]

theorem line_of_cons_length (w : List Nat) (rest : List (List Nat)) :
    w.length + (line_of rest).length ≤ (line_of (w :: rest)).length := by
  cases rest with
  | nil => simp [line_of]
  | cons v vs =>
    simp only [line_of, List.length_append, List.length_cons]
    omega

theorem argv_holds_congr (m m2 : Machine) (argv argv2 : Nat → Option Nat) (i : Nat)
    (ws : List (List Nat)) (hbuf : m2.input_buffer = m.input_buffer)
    (hargv : ∀ j, i ≤ j → j ≤ i + ws.length → argv2 j = argv j)
    (h : argv_holds m argv i ws) : argv_holds m2 argv2 i ws := by
  induction ws generalizing i with
  | nil =>
    simp only [argv_holds] at h ⊢
    rw [hargv i (by omega) (by omega)]
    exact h
  | cons w ws ih =>
    obtain ⟨⟨p, h1, h2⟩, h3⟩ := h
    simp only [List.length_cons] at hargv
    refine ⟨⟨p, ?_, ?_⟩, ih (i + 1) (fun j hj1 hj2 => hargv j (by omega) (by omega)) h3⟩
    · rw [hargv i (by omega) (by omega)]
      exact h1
    · rw [hbuf]
      exact h2

/-- A call `strtok(NULL, " ")` with the cursor at `q0`, where the pieces `w2 :: rest2` lie:
it returns `q0`, cuts `w2` off and leaves the cursor at the next piece, or clears it when
`w2` was the last one.  Nothing before `q0` changes. -/
theorem strtok_next_piece (w2 : List Nat) (rest2 : List (List Nat)) (f q0 : Nat) (m : Machine)
    (hlast : m.last = some q0) (hline : cstring_from m.input_buffer q0 (line_of (w2 :: rest2)))
    (hw2free : 32 ∉ w2) (hfuel : w2.length < f) :
    ∃ m1, strtok f none (bytes " ") m = some (some q0, m1) ∧
      cstring_from m1.input_buffer q0 w2 ∧
      ((rest2 = [] ∧ m1.last = none) ∨
        (rest2 ≠ [] ∧ m1.last = some (q0 + w2.length + 1) ∧
          cstring_from m1.input_buffer (q0 + w2.length + 1) (line_of rest2))) ∧
      (∀ j, j < q0 → m1.input_buffer j = m.input_buffer j) := by
  cases rest2 with
  | nil =>
    simp only [line_of] at hline
    rw [cstring_from_iff] at hline
    obtain ⟨s1, _⟩ := strtok_scan_piece w2 f q0 q0 m hw2free hline.1 hfuel
    refine ⟨{ m with last := none }, ?_, ?_, Or.inl ⟨rfl, rfl⟩, fun j _ => rfl⟩
    · simp [strtok, hlast, bytes_space, s1 hline.2]
    · rw [cstring_from_iff]
      exact hline
  | cons w3 rest3 =>
    simp only [line_of] at hline
    rw [cstring_from_append] at hline
    obtain ⟨c1, c2, c3, c4⟩ := hline
    obtain ⟨_, s2⟩ := strtok_scan_piece w2 f q0 q0 m hw2free c1 hfuel
    refine ⟨{ m with
        input_buffer := store m.input_buffer (q0 + w2.length) 0
        last := some (q0 + w2.length + 1) }, ?_, ?_, Or.inr ⟨by simp, rfl, ?_⟩, ?_⟩
    · simp [strtok, hlast, bytes_space, s2 c3]
    · rw [cstring_from_iff]
      refine ⟨chars_at_congr m.input_buffer _ _ w2 ?_ c1, by simp [store]⟩
      intro j hj1 hj2
      have : j ≠ q0 + w2.length := by omega
      simp [store, this]
    · apply cstring_from_congr m.input_buffer _ _ _ ?_ c4
      intro j hj1 _
      have : j ≠ q0 + w2.length := by omega
      simp [store, this]
    · intro j hj
      have : j ≠ q0 + w2.length := by omega
      simp [store, this]

/-- The loop of `parse_input`, entered with the token `w` at `q` already cut off and the
pieces `rest` still ahead of the cursor. -/
theorem parse_input_loop_pieces (rest : List (List Nat)) (w : List Nat) (q fuel argc : Nat)
    (argv : Nat → Option Nat) (m : Machine) (hw : cstring_from m.input_buffer q w)
    (hrest : (rest = [] ∧ m.last = none) ∨
      (rest ≠ [] ∧ m.last = some (q + w.length + 1) ∧
        cstring_from m.input_buffer (q + w.length + 1) (line_of rest)))
    (hfree : ∀ v ∈ rest, 32 ∉ v) (hargc : argc ≤ 10)
    (hfuel : (line_of rest).length + (10 - argc) + 1 < fuel) :
    ∃ argv2 m2,
      parse_input_loop fuel (some q) argc argv m
        = some (argv2, min (argc + 1 + rest.length) 10, m2) ∧
      argv_holds m2 argv2 argc ((w :: rest).take (10 - argc)) ∧
      (∀ j, j < argc → argv2 j = argv j) ∧
      (∀ j, min (argc + 1 + rest.length) 10 < j → argv2 j = argv j) ∧
      (∀ j, j ≤ q + w.length → m2.input_buffer j = m.input_buffer j) := by
  induction rest generalizing w q fuel argc argv m with
  | nil =>
    obtain ⟨f, rfl⟩ : ∃ f, fuel = f + 1 := ⟨fuel - 1, by omega⟩
    have hlast : m.last = none := by
      rcases hrest with ⟨_, h⟩ | ⟨h, _⟩
      · exact h
      · exact absurd rfl h
    by_cases ha : argc < 10
    · obtain ⟨g, rfl⟩ : ∃ g, f = g + 1 := ⟨f - 1, by omega⟩
      obtain ⟨k, hk⟩ : ∃ k, 10 - argc = k + 1 := ⟨10 - argc - 1, by omega⟩
      have e : min (argc + 1 + ([] : List (List Nat)).length) 10 = argc + 1 := by
        simp only [List.length_nil]
        omega
      rw [e, hk]
      refine ⟨store (store argv argc (some q)) (argc + 1) none, m, ?_, ?_, ?_, ?_, ?_⟩
      · simp [parse_input_loop, strtok, hlast, ha, MAX_ARGS]
      · simp only [List.take_succ_cons, List.take_nil, argv_holds]
        exact ⟨⟨q, by simp [store], hw⟩, by simp [store]⟩
      · intro j hj
        have h1 : j ≠ argc + 1 := by omega
        have h2 : j ≠ argc := by omega
        simp [store, h1, h2]
      · intro j hj
        have h1 : j ≠ argc + 1 := by omega
        have h2 : j ≠ argc := by omega
        simp [store, h1, h2]
      · intro j _
        rfl
    · have ha10 : argc = 10 := by omega
      subst ha10
      refine ⟨store argv 10 none, m, ?_, ?_, ?_, ?_, ?_⟩
      · simp [parse_input_loop, MAX_ARGS]
      · simp [argv_holds, store]
      · intro j hj
        have h1 : j ≠ 10 := by omega
        simp [store, h1]
      · intro j hj
        simp only [List.length_nil] at hj
        have h1 : j ≠ 10 := by omega
        simp [store, h1]
      · intro j _
        rfl
  | cons w2 rest2 ih =>
    obtain ⟨f, rfl⟩ : ∃ f, fuel = f + 1 := ⟨fuel - 1, by omega⟩
    obtain ⟨hlast, hline⟩ : m.last = some (q + w.length + 1) ∧
        cstring_from m.input_buffer (q + w.length + 1) (line_of (w2 :: rest2)) := by
      rcases hrest with ⟨h, _⟩ | ⟨_, h⟩
      · cases h
      · exact h
    have hlen := line_of_cons_length w2 rest2
    have hfree2 : ∀ v ∈ rest2, 32 ∉ v := fun v hv => hfree v (List.mem_cons_of_mem w2 hv)
    have hw2free : 32 ∉ w2 := hfree w2 (List.mem_cons_self w2 rest2)
    by_cases ha : argc < 10
    · obtain ⟨k, hk⟩ : ∃ k, 10 - argc = k + 1 := ⟨10 - argc - 1, by omega⟩
      have hk2 : 10 - (argc + 1) = k := by omega
      have e : min (argc + 1 + (w2 :: rest2).length) 10
          = min (argc + 1 + 1 + rest2.length) 10 := by
        simp only [List.length_cons]
        omega
      rw [e, hk, List.take_succ_cons]
      obtain ⟨m1, t1, t2, t3, t4'⟩ := strtok_next_piece w2 rest2 f (q + w.length + 1) m hlast
        hline hw2free (by omega)
      have t4 : ∀ j, j ≤ q + w.length → m1.input_buffer j = m.input_buffer j :=
        fun j hj => t4' j (by omega)
      obtain ⟨argv2, m2, r1, r2, r3, r4, r5⟩ := ih w2 (q + w.length + 1) f (argc + 1)
        (store argv argc (some q)) m1 t2 t3 hfree2 (by omega) (by omega)
      rw [hk2] at r2
      refine ⟨argv2, m2, ?_, ⟨⟨q, ?_, ?_⟩, r2⟩, ?_, ?_, ?_⟩
      · simp [parse_input_loop, ha, MAX_ARGS, t1, r1]
      · rw [r3 argc (by omega)]
        simp [store]
      · apply cstring_from_congr m.input_buffer _ _ _ ?_ hw
        intro j _ hj2
        rw [r5 j (by omega), t4 j hj2]
      · intro j hj
        rw [r3 j (by omega)]
        have : j ≠ argc := by omega
        simp [store, this]
      · intro j hj
        rw [r4 j hj]
        have : j ≠ argc := by omega
        simp [store, this]
      · intro j hj
        rw [r5 j (by omega), t4 j hj]
    · have ha10 : argc = 10 := by omega
      subst ha10
      refine ⟨store argv 10 none, m, ?_, ?_, ?_, ?_, ?_⟩
      · simp [parse_input_loop, MAX_ARGS]
        omega
      · simp [argv_holds, store]
      · intro j hj
        have h1 : j ≠ 10 := by omega
        simp [store, h1]
      · intro j hj
        have h1 : j ≠ 10 := by omega
        simp [store, h1]
      · intro j _
        rfl


theorem argv_holds_terminator (m : Machine) (argv : Nat → Option Nat) (i : Nat)
    (ws : List (List Nat)) (h : argv_holds m argv i ws) : argv (i + ws.length) = none := by
  induction ws generalizing i with
  | nil => simpa [argv_holds] using h
  | cons w ws ih =>
    have := ih (i + 1) h.2
    simp only [List.length_cons]
    rw [← this]
    congr 1
    omega

/-- What `parse_input` does to a line made of pieces without a space, with one space
between neighbours: the vector receives the first ten pieces, each cut off in place by a
NUL, then `NULL`; `argc` ends at their number. -/
theorem parse_input_pieces (m : Machine) (argv : Nat → Option Nat) (p : Nat)
    (ws : List (List Nat)) (fuel : Nat) (hne : ws ≠ []) (hfree : ∀ w ∈ ws, 32 ∉ w)
    (hline : cstring_from m.input_buffer p (line_of ws))
    (hfuel : (line_of ws).length + 11 < fuel) :
    ∃ argv2 m2, parse_input fuel (some p) argv m = some (argv2, min ws.length 10, m2) ∧
      argv_holds m2 argv2 0 (ws.take 10) ∧
      (∀ j, min ws.length 10 < j → argv2 j = argv j) ∧
      (∀ j, j < p → m2.input_buffer j = m.input_buffer j) := by
  obtain ⟨w, rest, rfl⟩ := List.exists_cons_of_ne_nil hne
  have hlen := line_of_cons_length w rest
  obtain ⟨m1, t1, t2, t3, t4⟩ := strtok_next_piece w rest fuel p { m with last := some p } rfl
    hline (hfree w (List.mem_cons_self w rest)) (by omega)
  obtain ⟨argv2, m2, r1, r2, _, r4, r5⟩ := parse_input_loop_pieces rest w p fuel 0 argv m1 t2
    (by simpa [Nat.add_assoc] using t3)
    (fun v hv => hfree v (List.mem_cons_of_mem w hv)) (by omega) (by omega)
  have e : min (0 + 1 + rest.length) 10 = min (w :: rest).length 10 := by
    simp only [List.length_cons]
    omega
  rw [e] at r1 r4
  refine ⟨argv2, m2, ?_, r2, r4, fun j hj => ?_⟩
  · have hs : strtok fuel (some p) (bytes " ") m
        = strtok fuel none (bytes " ") { m with last := some p } := by
      simp [strtok]
    simp only [parse_input, hs, t1, r1]
  · rw [r5 j (by omega)]
    exact t4 j hj

/-- Claim C6.  For a line of more than ten words without a space (and without NUL), with
one space between neighbours, `parse_input` returns with `argv[0..9]` pointing to the first
ten words, in order, each cut off in place by a NUL, with `NULL` in `argv[10]`, with
`argc = 10`, and with every later slot of `argv` untouched: the other words are dropped.
The words need not even be non-empty. -/
theorem C6_first_ten_words (m : Machine) (argv : Nat → Option Nat) (p : Nat)
    (words : List (List Nat)) (fuel : Nat) (hmany : 10 < words.length)
    (hfree : ∀ w ∈ words, 32 ∉ w) (hline : cstring_from m.input_buffer p (line_of words))
    (hfuel : (line_of words).length + 11 < fuel) :
    ∃ argv2 m2, parse_input fuel (some p) argv m = some (argv2, 10, m2) ∧
      argv_holds m2 argv2 0 (words.take 10) ∧ argv2 10 = none ∧
      ∀ j, 10 < j → argv2 j = argv j := by
  have hne : words ≠ [] := by
    intro h
    rw [h] at hmany
    simp at hmany
  obtain ⟨argv2, m2, h1, h2, h3, _⟩ := parse_input_pieces m argv p words fuel hne hfree hline
    hfuel
  have e : min words.length 10 = 10 := by omega
  rw [e] at h1 h3
  refine ⟨argv2, m2, h1, h2, ?_, h3⟩
  have ht := argv_holds_terminator m2 argv2 0 (words.take 10) h2
  have e2 : 0 + (words.take 10).length = 10 := by
    rw [List.length_take]
    omega
  rw [e2] at ht
  exact ht

/-- Witness of C6: the line `a b c d e f g h i j k l m n o` of fifteen words; the vector
keeps `a` to `j`. -/
theorem C6_first_ten_words_witness :
    ∃ argv2 m2,
      parse_input 41 (some 0) (fun _ => some 7) (with_line (line_of fifteen_words) boot)
        = some (argv2, 10, m2) ∧
      argv_holds m2 argv2 0
        [[97], [98], [99], [100], [101], [102], [103], [104], [105], [106]] ∧
      argv2 10 = none ∧ ∀ j, 10 < j → argv2 j = some 7 :=
  C6_first_ten_words (with_line (line_of fifteen_words) boot) (fun _ => some 7) 0 fifteen_words
    41 (by decide) (by decide) (by simp [cstring_from, with_line, line_of, fifteen_words])
    (by decide)

/-! ## The echo command -/

theorem execute_command_echo_words (ws : List (List Nat)) (fuel i : Nat)
    (argv : Nat → Option Nat) (m : Machine) (h : argv_holds m argv i ws)
    (hfuel : (echo_output ws).length < fuel) :
    execute_command_echo fuel argv i m = some (putchars (echo_output ws) m) := by
  induction ws generalizing fuel i m with
  | nil =>
    obtain ⟨f, rfl⟩ : ∃ f, fuel = f + 1 := ⟨fuel - 1, by omega⟩
    simp only [argv_holds] at h
    simp [execute_command_echo, h, echo_output, putchars]
  | cons w ws ih =>
    obtain ⟨f, rfl⟩ : ∃ f, fuel = f + 1 := ⟨fuel - 1, by omega⟩
    obtain ⟨⟨p, hp, hc⟩, hrest⟩ := h
    simp only [echo_output, List.length_append, List.length_cons] at hfuel
    have hw := terminal_writestring_cstring w f (deref m p) m
      ((cstring_from_deref m p w 0).mpr hc) (by omega)
    have hsame : (terminal_putchar 32 (putchars w m)).input_buffer = m.input_buffer :=
      ((terminal_putchar_same 32 _).1).trans (putchars_same w m).1
    have hrest2 := argv_holds_congr m (terminal_putchar 32 (putchars w m)) argv argv (i + 1) ws
      hsame (fun _ _ _ => rfl) hrest
    rw [execute_command_echo]
    simp only [hp, hw]
    rw [ih f (i + 1) _ hrest2 (by omega)]
    simp [putchars, echo_output, List.foldl_append]

/-- The `echo` branch of `execute_command`. -/
theorem execute_command_echo_eq (m : Machine) (argv : Nat → Option Nat)
    (args : List (List Nat)) (fuel : Nat) (h : argv_holds m argv 0 (bytes "echo" :: args))
    (hfuel : max (echo_output args).length 4 < fuel) :
    execute_command fuel argv m = some (terminal_putchar 10 (putchars (echo_output args) m)) := by
  have hf1 : (echo_output args).length < fuel := lt_of_le_of_lt (le_max_left _ _) hfuel
  have hf2 : 4 < fuel := lt_of_le_of_lt (le_max_right _ _) hfuel
  obtain ⟨⟨p, hp, hc⟩, hrest⟩ := h
  obtain ⟨r1, hr1, hi1⟩ := strcmp_cstrings (bytes "echo") (bytes "echo") fuel (deref m p)
    (literal "echo") 0 ((cstring_from_deref m p _ 0).mpr hc) cstring_literal_echo
    (by rw [bytes_echo]; simpa using hf2)
  have hz : r1 = 0 := hi1.mpr rfl
  have hloop := execute_command_echo_words args fuel 1 argv m hrest hf1
  simp only [execute_command, hp, hr1, hz, if_true, hloop]

theorem bytes_echo_hi_there :
    bytes "echo hi there" = [101, 99, 104, 111, 32, 104, 105, 32, 116, 104, 101, 114, 101] := by
  decide

/-- Claim C8.  First part: when `argv[0]` is `echo`, `execute_command` returns and has
handed to the output sink each further argument followed by one space, in order, and then
one newline, and nothing else.  Second part: when the characters `get_char` is going to
return are those of `echo hi there` and a newline, then `read_input`, `parse_input` on
`input_buffer` and `execute_command` all return, the vector has three arguments, and what
`execute_command` hands to the output sink is exactly `hi there ` and a newline. -/
theorem C8_echo :
    (∀ (m : Machine) (argv : Nat → Option Nat) (args : List (List Nat)) (fuel : Nat),
      argv_holds m argv 0 (bytes "echo" :: args) →
      max (echo_output args).length 4 < fuel →
      ∃ m2, execute_command fuel argv m = some m2 ∧
        m2.sink = m.sink ++ echo_output args ++ [10]) ∧
    (∀ (m : Machine) (argv : Nat → Option Nat) (rest : List Nat) (fuel : Nat),
      ring_ok m →
      incoming m = bytes "echo hi there" ++ 10 :: rest →
      24 < fuel →
      ∃ m1 argv1 m2 m3, read_input fuel m = some m1 ∧
        parse_input fuel (some 0) argv m1 = some (argv1, 3, m2) ∧
        execute_command fuel argv1 m2 = some m3 ∧
        m3.sink = m2.sink ++ bytes "hi there " ++ [10]) := by
  have part1 : ∀ (m : Machine) (argv : Nat → Option Nat) (args : List (List Nat)) (fuel : Nat),
      argv_holds m argv 0 (bytes "echo" :: args) →
      max (echo_output args).length 4 < fuel →
      ∃ m2, execute_command fuel argv m = some m2 ∧
        m2.sink = m.sink ++ echo_output args ++ [10] := by
    intro m argv args fuel h hfuel
    refine ⟨_, execute_command_echo_eq m argv args fuel h hfuel, ?_⟩
    rw [terminal_putchar_sink, putchars_sink]
  refine ⟨part1, ?_⟩
  intro m argv rest fuel hok hin hfuel
  have hlen : (bytes "echo hi there").length = 13 := by decide
  obtain ⟨m1, k1, _, _, k4⟩ := read_input_loop_plain (bytes "echo hi there") rest fuel 0 m hok
    hin (by decide) (by omega) (by omega)
  have hline : cstring_from m1.input_buffer 0
      (line_of [bytes "echo", bytes "hi", bytes "there"]) := by
    have e : line_of [bytes "echo", bytes "hi", bytes "there"] = bytes "echo hi there" := by
      decide
    rw [e, bytes_echo_hi_there]
    simp [cstring_from, k4, bytes_echo_hi_there]
  have hl2 : (line_of [bytes "echo", bytes "hi", bytes "there"]).length = 13 := by decide
  obtain ⟨argv1, m2, p1, p2, _, _⟩ := parse_input_pieces m1 argv 0
    [bytes "echo", bytes "hi", bytes "there"] fuel (by simp) (by decide) hline (by omega)
  have hout : echo_output [bytes "hi", bytes "there"] = bytes "hi there " := by decide
  have hol : max (echo_output [bytes "hi", bytes "there"]).length 4 = 9 := by decide
  have h3 : min [bytes "echo", bytes "hi", bytes "there"].length 10 = 3 := by decide
  have ht : List.take 10 [bytes "echo", bytes "hi", bytes "there"]
      = bytes "echo" :: [bytes "hi", bytes "there"] := rfl
  rw [h3] at p1
  rw [ht] at p2
  obtain ⟨m3, x1, x2⟩ := part1 m2 argv1 [bytes "hi", bytes "there"] fuel p2
    (by rw [hol]; omega)
  rw [hout] at x2
  exact ⟨m1, argv1, m2, m3, k1, p1, x1, x2⟩

/-- Witness of C8: the vector `echo`, `hi` for the first part; for the second part the keys
e, c, h, o, space, h, i, space, t, h, e, r, e, Enter pressed after boot. -/
theorem C8_echo_witness :
    (∃ m2, execute_command 5 (fun i => if i = 0 then some 0 else if i = 1 then some 5 else none)
        (with_line [101, 99, 104, 111, 0, 104, 105] boot) = some m2 ∧
      m2.sink = boot.sink ++ echo_output [[104, 105]] ++ [10]) ∧
    (∃ m1 argv1 m2 m3,
      read_input 25
        { boot with keyboard := [18, 46, 35, 24, 57, 35, 23, 57, 20, 35, 18, 19, 18, 28] }
          = some m1 ∧
      parse_input 25 (some 0) (fun _ => none) m1 = some (argv1, 3, m2) ∧
      execute_command 25 argv1 m2 = some m3 ∧
      m3.sink = m2.sink ++ bytes "hi there " ++ [10]) :=
  ⟨C8_echo.1 (with_line [101, 99, 104, 111, 0, 104, 105] boot)
      (fun i => if i = 0 then some 0 else if i = 1 then some 5 else none) [[104, 105]] 5
      (by simp [argv_holds, cstring_from, with_line, bytes_echo]) (by decide),
    C8_echo.2 { boot with keyboard := [18, 46, 35, 24, 57, 35, 23, 57, 20, 35, 18, 19, 18, 28] }
      (fun _ => none) [] 25 (by decide) (by decide) (by decide)⟩

/-! ## Runs of spaces -/

/-- Claim C7 (evaluation of the code).  `strtok` cuts the line at every single space and
never skips one: on a line made of `w1`, two spaces and `w2`, both without a space,
`parse_input` yields three tokens, the middle one empty.  For `echo  hi` the vector is
`echo`, the empty string, `hi`. -/
theorem C7_double_space_yields_empty_token (m : Machine) (argv : Nat → Option Nat) (p : Nat)
    (w1 w2 : List Nat) (fuel : Nat) (h1 : 32 ∉ w1) (h2 : 32 ∉ w2)
    (hline : cstring_from m.input_buffer p (w1 ++ 32 :: 32 :: w2))
    (hfuel : w1.length + w2.length + 13 < fuel) :
    ∃ argv2 m2, parse_input fuel (some p) argv m = some (argv2, 3, m2) ∧
      argv_holds m2 argv2 0 [w1, [], w2] := by
  have e : line_of [w1, [], w2] = w1 ++ 32 :: 32 :: w2 := by simp [line_of]
  obtain ⟨argv2, m2, p1, p2, _, _⟩ := parse_input_pieces m argv p [w1, [], w2] fuel (by simp)
    (by
      intro w hw
      simp only [List.mem_cons, List.mem_singleton, List.not_mem_nil, or_false] at hw
      rcases hw with rfl | rfl | rfl
      · exact h1
      · simp
      · exact h2)
    (by rw [e]; exact hline)
    (by rw [e]; simp only [List.length_append, List.length_cons]; omega)
  exact ⟨argv2, m2, p1, p2⟩

/-- Witness of C7: the line `echo  hi` with two spaces. -/
theorem C7_double_space_yields_empty_token_witness :
    ∃ argv2 m2,
      parse_input 20 (some 0) (fun _ => none) (with_line (bytes "echo  hi") boot)
        = some (argv2, 3, m2) ∧
      argv_holds m2 argv2 0 [bytes "echo", [], bytes "hi"] :=
  C7_double_space_yields_empty_token (with_line (bytes "echo  hi") boot) (fun _ => none) 0
    (bytes "echo") (bytes "hi") 20 (by decide) (by decide)
    (by
      have e : bytes "echo  hi" = [101, 99, 104, 111, 32, 32, 104, 105] := by decide
      have e2 : bytes "hi" = [104, 105] := by decide
      simp [cstring_from, with_line, e, e2, bytes_echo])
    (by decide)

/-! ## Scancode translation and the interrupt handler -/

/-- Claim C11 (evaluation of the code).  For a scancode from 128 on, `scancode_to_char`
indexes `scancode_map` past its 128 entries and returns the byte that lies there, whatever
it is; when that byte is not NUL and the buffer is not full, `keyboard_isr` enqueues it. -/
theorem C11_release_code_reads_past_table (m : Machine) (scancode : Nat)
    (hrel : 128 ≤ scancode) (hok : ring_ok m)
    (hbyte : m.scancode_map_overrun (scancode - 128) ≠ 0) (hroom : (unread m).length < 127) :
    ¬ (scancode < scancode_map.length) ∧
      scancode_to_char m scancode = m.scancode_map_overrun (scancode - 128) ∧
      unread (keyboard_isr scancode m)
        = unread m ++ [m.scancode_map_overrun (scancode - 128)] := by
  have hlen : scancode_map.length = 128 := by simp [scancode_map]
  have hc : scancode_to_char m scancode = m.scancode_map_overrun (scancode - 128) := by
    have : ¬ scancode < 128 := by omega
    simp [scancode_to_char, this]
  refine ⟨by rw [hlen]; omega, hc, ?_⟩
  have h := (unread_push m (scancode_to_char m scancode) hok (by rw [hc]; exact hbyte) hroom).1
  rw [hc] at h
  simpa [keyboard_isr, outb, unread, hc] using h

/-- Witness of C11: the release code of the key `a` (0x9E) with the byte 65 behind the
table, on the empty buffer after boot. -/
theorem C11_release_code_reads_past_table_witness :
    ¬ (158 < scancode_map.length) ∧
      scancode_to_char { boot with scancode_map_overrun := fun _ => 65 } 158 = 65 ∧
      unread (keyboard_isr 158 { boot with scancode_map_overrun := fun _ => 65 })
        = unread { boot with scancode_map_overrun := fun _ => 65 } ++ [65] :=
  C11_release_code_reads_past_table { boot with scancode_map_overrun := fun _ => 65 } 158
    (by decide) (by decide) (by decide) (by decide)

/-- Claim C12.  On the scancodes below 128 `scancode_to_char` is the unshifted US-QWERTY
table: 2..11 are the digits 1 to 9 and 0; 16..25 are `qwertyuiop`; 30..38 are `asdfghjkl`;
44..50 are `zxcvbnm`; 12, 13, 26, 27, 39, 40, 41, 43, 51, 52, 53 are minus, equals, the two
brackets, semicolon, quote, backquote, backslash, comma, full stop and slash; 57 is space,
15 tab, 28 newline, 14 backspace; control (29), the shifts (42, 54), alt (56), caps lock (58)
and F1 to F10 (59..68) give 0. -/
theorem C12_qwerty_table (m : Machine) :
    (List.range' 2 10).map (scancode_to_char m) = bytes "1234567890" ∧
      (List.range' 16 10).map (scancode_to_char m) = bytes "qwertyuiop" ∧
      (List.range' 30 9).map (scancode_to_char m) = bytes "asdfghjkl" ∧
      (List.range' 44 7).map (scancode_to_char m) = bytes "zxcvbnm" ∧
      [12, 13, 26, 27, 39, 40, 41, 43, 51, 52, 53].map (scancode_to_char m)
        = [45, 61, 91, 93, 59, 39, 96, 92, 44, 46, 47] ∧
      scancode_to_char m 57 = 32 ∧ scancode_to_char m 15 = 9 ∧
      scancode_to_char m 28 = 10 ∧ scancode_to_char m 14 = 8 ∧
      [29, 42, 54, 56, 58].map (scancode_to_char m) = [0, 0, 0, 0, 0] ∧
      (List.range' 59 10).map (scancode_to_char m) = List.replicate 10 0 := by
  refine ⟨?_, ?_, ?_, ?_, ?_, ?_, ?_, ?_, ?_, ?_, ?_⟩ <;> rfl

/-- Claim C13.  Whatever scancode the data port yields and whatever the state of the ring
buffer, `keyboard_isr` performs exactly one port write, the value 0x20 to port 0x20, and
it is its last action: the handler is the guarded store, which writes no port, followed by
that `outb`. -/
theorem C13_one_end_of_interrupt (m : Machine) (scancode : Nat) :
    (keyboard_isr scancode m).port_writes = m.port_writes ++ [(0x20, 0x20)] ∧
      keyboard_isr scancode m
        = outb 0x20 0x20 (keyboard_isr_push (scancode_to_char m scancode) m) ∧
      (keyboard_isr_push (scancode_to_char m scancode) m).port_writes = m.port_writes := by
  refine ⟨?_, rfl, ?_⟩
  · simp only [keyboard_isr, outb, keyboard_isr_push]
    split_ifs <;> rfl
  · simp only [keyboard_isr_push]
    split_ifs <;> rfl

/-- Claim C14.  `keyboard_isr` never changes `buffer_tail`; when it enqueues (the character
is not NUL and the buffer is not full) it changes `key_buffer` only in the slot at the old
`buffer_head` and moves `buffer_head` to the next index modulo 128, and otherwise it leaves
both alone.  `get_char` on a non-empty buffer returns the slot at the old `buffer_tail`,
moves `buffer_tail` to the next index modulo 128 and changes neither `buffer_head` nor
`key_buffer`. -/
theorem C14_single_writer (m : Machine) (scancode : Nat) :
    (keyboard_isr scancode m).buffer_tail = m.buffer_tail ∧
      (scancode_to_char m scancode ≠ 0 ∧ buffer_is_full m = false →
        (keyboard_isr scancode m).key_buffer
            = store m.key_buffer m.buffer_head (scancode_to_char m scancode) ∧
          (keyboard_isr scancode m).buffer_head = (m.buffer_head + 1) % 128) ∧
      (¬ (scancode_to_char m scancode ≠ 0 ∧ buffer_is_full m = false) →
        (keyboard_isr scancode m).key_buffer = m.key_buffer ∧
          (keyboard_isr scancode m).buffer_head = m.buffer_head) ∧
      (buffer_is_empty m = false →
        ∃ m2, get_char m = some (m.key_buffer m.buffer_tail, m2) ∧
          m2.buffer_tail = (m.buffer_tail + 1) % 128 ∧
          m2.buffer_head = m.buffer_head ∧ m2.key_buffer = m.key_buffer) := by
  refine ⟨?_, ?_, ?_, ?_⟩
  · simp only [keyboard_isr, outb, keyboard_isr_push]
    split_ifs <;> rfl
  · intro h
    simp [keyboard_isr, outb, keyboard_isr_push, h, BUFFER_SIZE]
  · intro h
    simp only [keyboard_isr, outb, keyboard_isr_push, h, if_false, and_self]
  · intro h
    refine ⟨{ m with buffer_tail := (m.buffer_tail + 1) % BUFFER_SIZE }, ?_, rfl, rfl, rfl⟩
    simp [get_char, get_char_wait_of_not_empty _ m h]

/-- Witness of C14: the key `a` arriving while one character is unread, and `get_char` on
that state. -/
theorem C14_single_writer_witness :
    (keyboard_isr 30 { boot with buffer_head := 1 }).buffer_tail = 0 ∧
      (keyboard_isr 30 { boot with buffer_head := 1 }).key_buffer
        = store boot.key_buffer 1 97 ∧
      (keyboard_isr 30 { boot with buffer_head := 1 }).buffer_head = (1 + 1) % 128 ∧
      ∃ m2, get_char { boot with buffer_head := 1 } = some (boot.key_buffer 0, m2) ∧
        m2.buffer_tail = (0 + 1) % 128 ∧ m2.buffer_head = 1 ∧
        m2.key_buffer = boot.key_buffer :=
  have h := C14_single_writer { boot with buffer_head := 1 } 30
  ⟨h.1, (h.2.1 (by decide)).1, (h.2.1 (by decide)).2, h.2.2.2 (by decide)⟩

/-! ## Cursor of the terminal -/

theorem terminal_putchar_cursor (c : Nat) (m : Machine) (hrow : m.terminal_row < 25)
    (hcol : m.terminal_column < 80) :
    (terminal_putchar c m).terminal_buffer
        = store m.terminal_buffer (m.terminal_row * 80 + m.terminal_column)
            (vga_entry (c % 256) m.terminal_color) ∧
      (terminal_putchar c m).terminal_row
        = (if m.terminal_column = 79 then (if m.terminal_row = 24 then 0 else m.terminal_row + 1)
          else m.terminal_row) ∧
      (terminal_putchar c m).terminal_column
        = (if m.terminal_column = 79 then 0 else m.terminal_column + 1) := by
  have e1 : (m.terminal_row * 80 + m.terminal_column) % 4294967296
      = m.terminal_row * 80 + m.terminal_column := by omega
  have e2 : (m.terminal_column + 1) % 4294967296 = m.terminal_column + 1 := by omega
  have e3 : (m.terminal_row + 1) % 4294967296 = m.terminal_row + 1 := by omega
  simp only [terminal_putchar, VGA_WIDTH, VGA_HEIGHT, e1, e2, e3]
  by_cases h1 : m.terminal_column = 79
  · by_cases h2 : m.terminal_row = 24
    · simp [h1, h2]
    · have h3 : ¬ (m.terminal_row + 1 = 25) := by omega
      simp [h1, h2, h3]
  · have h3 : ¬ (m.terminal_column + 1 = 80) := by omega
    simp [h1, h3]

/-- Claim C17.  For every character, newline and backspace included, and every terminal
state with `terminal_row < 25` and `terminal_column < 80`, `terminal_putchar` writes the
cell at index `terminal_row * 80 + terminal_column`, which is below 2000, and no other
cell; the linear cursor position `row * 80 + column` grows by exactly one modulo 2000; the
cursor stays inside the screen; and from the last cell of row 24 it goes to row 0,
column 0, the cells keeping their places (no scrolling). -/
theorem C17_putchar_advances_cursor (c : Nat) (m : Machine) (hrow : m.terminal_row < 25)
    (hcol : m.terminal_column < 80) :
    m.terminal_row * 80 + m.terminal_column < 2000 ∧
      (terminal_putchar c m).terminal_buffer (m.terminal_row * 80 + m.terminal_column)
        = vga_entry (c % 256) m.terminal_color ∧
      (∀ i, i ≠ m.terminal_row * 80 + m.terminal_column →
        (terminal_putchar c m).terminal_buffer i = m.terminal_buffer i) ∧
      (terminal_putchar c m).terminal_row * 80 + (terminal_putchar c m).terminal_column
        = (m.terminal_row * 80 + m.terminal_column + 1) % 2000 ∧
      (terminal_putchar c m).terminal_row < 25 ∧
      (terminal_putchar c m).terminal_column < 80 ∧
      (m.terminal_row = 24 ∧ m.terminal_column = 79 →
        (terminal_putchar c m).terminal_row = 0 ∧
          (terminal_putchar c m).terminal_column = 0) := by
  obtain ⟨hb, hr, hc⟩ := terminal_putchar_cursor c m hrow hcol
  refine ⟨by omega, ?_, ?_, ?_, ?_, ?_, ?_⟩
  · rw [hb]
    simp [store]
  · intro i hi
    rw [hb]
    simp [store, hi]
  · rw [hr, hc]
    split_ifs <;> omega
  · rw [hr]
    split_ifs <;> omega
  · rw [hc]
    split_ifs <;> omega
  · intro h
    rw [hr, hc]
    simp [h.1, h.2]

/-- Witness of C17: a newline written at the last cell of the screen. -/
theorem C17_putchar_advances_cursor_witness :
    24 * 80 + 79 < 2000 ∧
      (terminal_putchar 10 { boot with terminal_row := 24, terminal_column := 79 }).terminal_buffer
          (24 * 80 + 79) = vga_entry (10 % 256) 0 ∧
      (terminal_putchar 10 { boot with terminal_row := 24, terminal_column := 79 }).terminal_row
        = 0 ∧
      (terminal_putchar 10 { boot with terminal_row := 24, terminal_column := 79 }).terminal_column
        = 0 :=
  have h := C17_putchar_advances_cursor 10
    { boot with terminal_row := 24, terminal_column := 79 } (by decide) (by decide)
  ⟨h.1, h.2.1, (h.2.2.2.2.2.2 ⟨rfl, rfl⟩).1, (h.2.2.2.2.2.2 ⟨rfl, rfl⟩).2⟩

/-! ## The terminator of the argument vector -/

/-- Claim C18 (evaluation of the code).  On a line of ten or more pieces `parse_input` ends
with `argc = 10` and performs its last store, `argv[argc] = NULL`, at index 10, which is
not smaller than `MAX_ARGS`: the slot behind the ten slots `shell` declares is overwritten
with `NULL`. -/
theorem C18_terminator_behind_argv (m : Machine) (argv : Nat → Option Nat) (p : Nat)
    (ws : List (List Nat)) (fuel : Nat) (hten : 10 ≤ ws.length) (hfree : ∀ w ∈ ws, 32 ∉ w)
    (hline : cstring_from m.input_buffer p (line_of ws))
    (hfuel : (line_of ws).length + 11 < fuel) :
    ∃ argv2 m2, parse_input fuel (some p) argv m = some (argv2, 10, m2) ∧
      argv2 10 = none ∧ ¬ (10 < MAX_ARGS) := by
  have hne : ws ≠ [] := by
    intro h
    rw [h] at hten
    simp at hten
  obtain ⟨argv2, m2, h1, h2, _, _⟩ := parse_input_pieces m argv p ws fuel hne hfree hline hfuel
  have e : min ws.length 10 = 10 := by omega
  rw [e] at h1
  refine ⟨argv2, m2, h1, ?_, by decide⟩
  have ht := argv_holds_terminator m2 argv2 0 (ws.take 10) h2
  have e2 : 0 + (ws.take 10).length = 10 := by
    rw [List.length_take]
    omega
  rw [e2] at ht
  exact ht

/-- Witness of C18: the line `a b c d e f g h i j` of exactly ten words, with the slot
behind the array holding a pointer beforehand. -/
theorem C18_terminator_behind_argv_witness :
    (fun _ => some 7 : Nat → Option Nat) 10 = some 7 ∧
      ∃ argv2 m2,
        parse_input 31 (some 0) (fun _ => some 7)
          (with_line (line_of (fifteen_words.take 10)) boot) = some (argv2, 10, m2) ∧
        argv2 10 = none ∧ ¬ (10 < MAX_ARGS) :=
  ⟨rfl,
    C18_terminator_behind_argv (with_line (line_of (fifteen_words.take 10)) boot)
      (fun _ => some 7) 0 (fifteen_words.take 10) 31 (by decide) (by decide)
      (by simp [cstring_from, with_line, line_of, fifteen_words]) (by decide)⟩

/-! ## Reachable states of the ring buffer -/

theorem ring_ok_keyboard_isr (m : Machine) (scancode : Nat) (hok : ring_ok m) :
    ring_ok (keyboard_isr scancode m) := by
  obtain ⟨hh, ht⟩ := hok
  simp only [BUFFER_SIZE] at hh ht
  simp only [keyboard_isr, outb, keyboard_isr_push, ring_ok, BUFFER_SIZE]
  split_ifs
  · exact ⟨Nat.mod_lt _ (by decide), ht⟩
  · exact ⟨hh, ht⟩

theorem ring_ok_ring_step (op : RingOp) (m m1 : Machine) (hok : ring_ok m)
    (h : ring_step op m = some m1) : ring_ok m1 := by
  cases op with
  | isr scancode =>
    simp only [ring_step, Option.some.injEq] at h
    rw [← h]
    exact ring_ok_keyboard_isr m scancode hok
  | get =>
    by_cases he : buffer_is_empty m = true
    · simp [ring_step, he] at h
    · simp only [Bool.not_eq_true] at he
      simp only [ring_step, he, get_char, get_char_wait_of_not_empty _ m he] at h
      simp only [Bool.false_eq_true, if_false, Option.some.injEq] at h
      rw [← h]
      obtain ⟨hh, ht⟩ := hok
      exact ⟨hh, Nat.mod_lt _ (by decide)⟩

theorem ring_ok_ring_run (ops : List RingOp) (m m1 : Machine) (hok : ring_ok m)
    (h : ring_run ops m = some m1) : ring_ok m1 := by
  induction ops generalizing m with
  | nil =>
    simp only [ring_run, Option.some.injEq] at h
    rw [← h]
    exact hok
  | cons op ops ih =>
    simp only [ring_run] at h
    cases hs : ring_step op m with
    | none => simp [hs] at h
    | some m2 =>
      simp only [hs] at h
      exact ih m2 (ring_ok_ring_step op m m2 hok hs) h

/-- Claim C19.  Every state reached from `buffer_head = buffer_tail = 0` by a finite
sequence of `keyboard_isr` calls (with any scancode, those of 0..127 included) and of
`get_char` calls on a non-empty buffer has `buffer_head < 128`, `buffer_tail < 128` and an
unread count `(buffer_head - buffer_tail) mod 128` between 0 and 127.  In such a state
`keyboard_isr` raises the count by one exactly when the scancode translates to a non-zero
character and the buffer is not full, and leaves it alone otherwise, and `get_char` on
the non-empty buffer returns and lowers the count by exactly one. -/
theorem C19_reachable_ring_states (ops : List RingOp) (m0 m : Machine)
    (hhead : m0.buffer_head = 0) (htail : m0.buffer_tail = 0)
    (hrun : ring_run ops m0 = some m) :
    m.buffer_head < 128 ∧ m.buffer_tail < 128 ∧ 0 ≤ unread_count m ∧ unread_count m ≤ 127 ∧
      (∀ scancode, unread_count (keyboard_isr scancode m)
        = unread_count m
          + (if scancode_to_char m scancode ≠ 0 ∧ buffer_is_full m = false then 1 else 0)) ∧
      (buffer_is_empty m = false →
        ∃ c m2, get_char m = some (c, m2) ∧ unread_count m2 = unread_count m - 1) := by
  have hok0 : ring_ok m0 := by
    simp only [ring_ok, hhead, htail, BUFFER_SIZE]
    decide
  obtain ⟨hh, ht⟩ := ring_ok_ring_run ops m0 m hok0 hrun
  simp only [BUFFER_SIZE] at hh ht
  refine ⟨hh, ht, ?_, ?_, ?_, ?_⟩
  · simp only [unread_count]
    omega
  · simp only [unread_count]
    omega
  · intro scancode
    by_cases hc : scancode_to_char m scancode ≠ 0 ∧ buffer_is_full m = false
    · have hfull := hc.2
      simp only [buffer_is_full, BUFFER_SIZE, beq_eq_false_iff_ne, ne_eq] at hfull
      simp only [keyboard_isr, outb, keyboard_isr_push, hc, and_self, if_true, unread_count,
        BUFFER_SIZE, ne_eq, not_false_eq_true]
      omega
    · simp only [keyboard_isr, outb, keyboard_isr_push, hc, if_false, unread_count]
      omega
  · intro he
    refine ⟨m.key_buffer m.buffer_tail,
      { m with buffer_tail := (m.buffer_tail + 1) % BUFFER_SIZE }, ?_, ?_⟩
    · simp [get_char, get_char_wait_of_not_empty _ m he]
    · simp only [buffer_is_empty, beq_eq_false_iff_ne, ne_eq] at he
      simp only [unread_count, BUFFER_SIZE]
      omega

/-- Witness of C19: the keys `a`, left shift, `s`, then two calls of `get_char`. -/
theorem C19_reachable_ring_states_witness :
    ring_run [RingOp.isr 30, RingOp.isr 42, RingOp.isr 31, RingOp.get, RingOp.get] boot
        = some two_keys_read ∧
      two_keys_read.buffer_head < 128 ∧ two_keys_read.buffer_tail < 128 ∧
      0 ≤ unread_count two_keys_read ∧ unread_count two_keys_read ≤ 127 :=
  have h := C19_reachable_ring_states
    [RingOp.isr 30, RingOp.isr 42, RingOp.isr 31, RingOp.get, RingOp.get] boot two_keys_read
    rfl rfl rfl
  ⟨rfl, h.1, h.2.1, h.2.2.1, h.2.2.2.1⟩

/-! ## Splitting a line at its spaces -/

theorem split_spaces_ne_nil (line : List Nat) : split_spaces line ≠ [] := by
  cases line with
  | nil => simp [split_spaces]
  | cons c cs =>
    simp only [split_spaces]
    split_ifs
    · simp
    · cases split_spaces cs <;> simp

theorem line_of_cons_cons (c : Nat) (w : List Nat) (ws : List (List Nat)) :
    line_of ((c :: w) :: ws) = c :: line_of (w :: ws) := by
  cases ws <;> simp [line_of]

theorem line_of_nil_cons (ws : List (List Nat)) (h : ws ≠ []) :
    line_of ([] :: ws) = 32 :: line_of ws := by
  cases ws with
  | nil => exact absurd rfl h
  | cons w ws => simp [line_of]

theorem line_of_split_spaces (line : List Nat) : line_of (split_spaces line) = line := by
  induction line with
  | nil => simp [split_spaces, line_of]
  | cons c cs ih =>
    simp only [split_spaces]
    split_ifs with hc
    · rw [line_of_nil_cons _ (split_spaces_ne_nil cs), ih, hc]
    · cases hs : split_spaces cs with
      | nil => exact absurd hs (split_spaces_ne_nil cs)
      | cons w ws =>
        rw [hs] at ih
        simp only [line_of_cons_cons, ih]

theorem split_spaces_free (line : List Nat) : ∀ w ∈ split_spaces line, 32 ∉ w := by
  induction line with
  | nil => simp [split_spaces]
  | cons c cs ih =>
    simp only [split_spaces]
    split_ifs with hc
    · intro w hw
      simp only [List.mem_cons] at hw
      rcases hw with rfl | hw
      · simp
      · exact ih w hw
    · cases hs : split_spaces cs with
      | nil => exact absurd hs (split_spaces_ne_nil cs)
      | cons v vs =>
        rw [hs] at ih
        intro w hw
        simp only [List.mem_cons] at hw
        rcases hw with rfl | hw
        · have hv := ih v (List.mem_cons_self v vs)
          simp only [List.mem_cons, not_or]
          exact ⟨fun e => hc e.symm, hv⟩
        · exact ih w (List.mem_cons_of_mem v hw)

theorem split_spaces_length (line : List Nat) :
    (split_spaces line).length = line.count 32 + 1 := by
  induction line with
  | nil => simp [split_spaces]
  | cons c cs ih =>
    simp only [split_spaces]
    split_ifs with hc
    · simp [hc, ih]
    · have hne : ¬ (c == 32) = true := by simpa using hc
      cases hs : split_spaces cs with
      | nil => exact absurd hs (split_spaces_ne_nil cs)
      | cons v vs =>
        rw [hs] at ih
        simp only [List.length_cons] at ih ⊢
        rw [List.count_cons, ih]
        simp [hc]

/-- Claim C20.  For a NUL-terminated line with at most nine spaces `parse_input` returns
with as many tokens as the line has spaces, plus one; no token contains a space; the tokens
joined by single spaces are the line; and the outcome does not depend on the cursor that
earlier `strtok` calls left in `last`. -/
theorem C20_tokens_are_the_pieces (m : Machine) (argv : Nat → Option Nat) (p : Nat)
    (line : List Nat) (fuel : Nat) (hline : cstring_from m.input_buffer p line)
    (hspaces : line.count 32 ≤ 9) (hfuel : line.length + 11 < fuel) :
    ∃ ws argv2 m2, parse_input fuel (some p) argv m = some (argv2, line.count 32 + 1, m2) ∧
      argv_holds m2 argv2 0 ws ∧ ws.length = line.count 32 + 1 ∧ (∀ w ∈ ws, 32 ∉ w) ∧
      line_of ws = line ∧
      ∀ cursor, parse_input fuel (some p) argv { m with last := cursor }
        = parse_input fuel (some p) argv m := by
  have hlen := split_spaces_length line
  have hl := line_of_split_spaces line
  obtain ⟨argv2, m2, h1, h2, _, _⟩ := parse_input_pieces m argv p (split_spaces line) fuel
    (split_spaces_ne_nil line) (split_spaces_free line) (by rw [hl]; exact hline)
    (by rw [hl]; exact hfuel)
  have e : min (split_spaces line).length 10 = line.count 32 + 1 := by omega
  have e2 : (split_spaces line).take 10 = split_spaces line :=
    List.take_of_length_le (by omega)
  rw [e] at h1
  rw [e2] at h2
  refine ⟨split_spaces line, argv2, m2, h1, h2, hlen, split_spaces_free line, hl, ?_⟩
  intro cursor
  simp [parse_input, strtok]

/-- Witness of C20: the line `a b  c ` with four spaces, two of them adjacent and one at the
end, and a stale cursor left in `last`. -/
theorem C20_tokens_are_the_pieces_witness :
    ∃ ws argv2 m2,
      parse_input 19 (some 0) (fun _ => none)
          (with_line [97, 32, 98, 32, 32, 99, 32] { boot with last := some 3 })
        = some (argv2, 4 + 1, m2) ∧
      argv_holds m2 argv2 0 ws ∧ ws.length = 4 + 1 ∧ (∀ w ∈ ws, 32 ∉ w) ∧
      line_of ws = [97, 32, 98, 32, 32, 99, 32] ∧
      ∀ cursor, parse_input 19 (some 0) (fun _ => none)
          { with_line [97, 32, 98, 32, 32, 99, 32] { boot with last := some 3 } with
            last := cursor }
        = parse_input 19 (some 0) (fun _ => none)
          (with_line [97, 32, 98, 32, 32, 99, 32] { boot with last := some 3 }) :=
  C20_tokens_are_the_pieces (with_line [97, 32, 98, 32, 32, 99, 32] { boot with last := some 3 })
    (fun _ => none) 0 [97, 32, 98, 32, 32, 99, 32] 19 (by simp [cstring_from, with_line])
    (by decide) (by decide)

/-! ## Line editing -/

theorem getD_dropLast (L : List Nat) (j : Nat) (h : j < L.length - 1) :
    L.dropLast.getD j 0 = L.getD j 0 := by
  rw [List.getD_eq_getElem _ _ (by rw [List.length_dropLast]; exact h),
    List.getD_eq_getElem _ _ (by omega), List.getElem_dropLast]

theorem line_in_buffer (buf : Nat → Nat) (L : List Nat)
    (h : ∀ j, j < L.length → buf j = L.getD j 0) (hz : buf L.length = 0) :
    (List.range (L.length + 1)).map buf = L ++ [0] := by
  rw [List.range_succ, List.map_append]
  congr 1
  · apply List.ext_getElem
    · simp
    · intro n h1 h2
      simp only [List.getElem_map, List.getElem_range]
      rw [h n h2]
      exact List.getD_eq_getElem L 0 h2
  · simp [hz]

/-- The loop of `read_input` keeps in `input_buffer[0..index)` the line that `line_edit`
computes, for any characters without newline and carriage return, and ends it with NUL
at the newline. -/
theorem read_input_loop_edits (cs : List Nat) (rest : List Nat) (fuel : Nat) (L : List Nat)
    (m : Machine) (hok : ring_ok m) (hin : incoming m = cs ++ 10 :: rest)
    (hnl : ∀ c ∈ cs, c ≠ 10 ∧ c ≠ 13) (hfuel : cs.length < fuel)
    (hL : ∀ j, j < L.length → m.input_buffer j = L.getD j 0) :
    ∃ m2, read_input_loop fuel L.length m = some m2 ∧ ring_ok m2 ∧ incoming m2 = rest ∧
      (∀ j, j < (cs.foldl line_edit L).length →
        m2.input_buffer j = (cs.foldl line_edit L).getD j 0) ∧
      m2.input_buffer (cs.foldl line_edit L).length = 0 := by
  induction cs generalizing fuel L m with
  | nil =>
    obtain ⟨f, rfl⟩ : ∃ f, fuel = f + 1 := ⟨fuel - 1, by omega⟩
    obtain ⟨m1, g1, g2, g3, g4⟩ := get_char_incoming m 10 rest hok (by simpa using hin)
    refine ⟨{ m1 with input_buffer := store m1.input_buffer L.length 0 }, ?_, g2, g3, ?_, ?_⟩
    · simp [read_input_loop, g1, read_input_body]
    · intro j hj
      simp only [List.foldl_nil] at hj ⊢
      have : j ≠ L.length := by omega
      simp only [store, this, if_false, g4.1]
      exact hL j hj
    · simp [store]
  | cons c cs ih =>
    obtain ⟨f, rfl⟩ : ∃ f, fuel = f + 1 := ⟨fuel - 1, by omega⟩
    simp only [List.length_cons] at hfuel
    obtain ⟨m1, g1, g2, g3, g4⟩ := get_char_incoming m c (cs ++ 10 :: rest) hok
      (by simpa using hin)
    obtain ⟨c10, c13⟩ := hnl c (List.mem_cons_self c cs)
    have hnl2 : ∀ d ∈ cs, d ≠ 10 ∧ d ≠ 13 := fun d hd => hnl d (List.mem_cons_of_mem c hd)
    simp only [List.foldl_cons]
    by_cases hb : c = 8 ∧ L.length > 0
    · -- backspace on a non-empty line
      obtain ⟨s1, s2, s3, s4, _, s6, s7, _⟩ := terminal_putchar_same 8 m1
      have hedit : line_edit L c = L.dropLast := by simp [line_edit, hb]
      have hlen : (L.dropLast).length = L.length - 1 := List.length_dropLast L
      obtain ⟨m2, k1, k2, k3, k4, k5⟩ := ih f L.dropLast (terminal_putchar 8 m1)
        (ring_ok_congr m1 _ s3 s4 g2)
        (by rw [incoming_congr m1 _ s2 s3 s4 s6 s7]; exact g3) hnl2 (by omega)
        (by
          intro j hj
          rw [hlen] at hj
          rw [s1, g4.1, hL j (by omega), getD_dropLast L j hj])
      rw [hlen] at k1
      rw [hedit]
      refine ⟨m2, ?_, k2, k3, k4, k5⟩
      simp [read_input_loop, g1, read_input_body, c10, c13, hb.1, hb.2, k1]
    · by_cases hlt : L.length < 255
      · -- an ordinary character with room left
        obtain ⟨s1, s2, s3, s4, _, s6, s7, _⟩ :=
          terminal_putchar_same c { m1 with input_buffer := store m1.input_buffer L.length c }
        have hedit : line_edit L c = L ++ [c] := by
          simp [line_edit, hb, hlt, MAX_INPUT_SIZE]
        have hlen : (L ++ [c]).length = L.length + 1 := by simp
        obtain ⟨m2, k1, k2, k3, k4, k5⟩ := ih f (L ++ [c])
          (terminal_putchar c { m1 with input_buffer := store m1.input_buffer L.length c })
          (ring_ok_congr m1 _ s3 s4 g2)
          (by rw [incoming_congr m1 _ s2 s3 s4 s6 s7]; exact g3) hnl2 (by omega)
          (by
            intro j hj
            rw [hlen] at hj
            rw [s1]
            simp only [store, g4.1]
            by_cases hj2 : j = L.length
            · subst hj2
              simp [List.getD_append_right]
            · simp only [hj2, if_false]
              rw [hL j (by omega), List.getD_append _ _ _ _ (by omega)])
        rw [hlen] at k1
        rw [hedit]
        refine ⟨m2, ?_, k2, k3, k4, k5⟩
        have hb2 : ¬ (c = 8 ∧ 0 < L.length) := hb
        simp [read_input_loop, g1, read_input_body, c10, c13, hb2, hlt, MAX_INPUT_SIZE, k1]
      · -- the line is full: the character is dropped
        have hedit : line_edit L c = L := by
          simp [line_edit, hb, hlt, MAX_INPUT_SIZE]
        obtain ⟨m2, k1, k2, k3, k4, k5⟩ := ih f L m1 g2 g3 hnl2 (by omega)
          (by
            intro j hj
            rw [g4.1]
            exact hL j hj)
        rw [hedit]
        refine ⟨m2, ?_, k2, k3, k4, k5⟩
        have hb2 : ¬ (c = 8 ∧ 0 < L.length) := hb
        simp [read_input_loop, g1, read_input_body, c10, c13, hb2, hlt, MAX_INPUT_SIZE, k1]

/-- The line `read_input` returns for any characters without newline and carriage return,
followed by a newline. -/
theorem read_input_edits (m : Machine) (cs rest : List Nat) (fuel : Nat) (hok : ring_ok m)
    (hin : incoming m = cs ++ 10 :: rest) (hnl : ∀ c ∈ cs, c ≠ 10 ∧ c ≠ 13)
    (hfuel : cs.length < fuel) :
    ∃ m2, read_input fuel m = some m2 ∧
      (List.range ((line_after cs).length + 1)).map m2.input_buffer = line_after cs ++ [0] ∧
      incoming m2 = rest := by
  obtain ⟨m2, k1, _, k3, k4, k5⟩ := read_input_loop_edits cs rest fuel [] m hok hin hnl hfuel
    (by
      intro j hj
      simp at hj)
  exact ⟨m2, k1, line_in_buffer m2.input_buffer _ k4 k5, k3⟩

theorem line_after_cancel (s t : List Nat) (c : Nat) (hc : c ≠ 8)
    (hroom : (line_after s).length < 255) :
    line_after (s ++ c :: 8 :: t) = line_after (s ++ t) := by
  simp only [line_after, List.foldl_append, List.foldl_cons]
  have h1 : line_edit (List.foldl line_edit [] s) c = List.foldl line_edit [] s ++ [c] := by
    simp only [line_after] at hroom
    simp [line_edit, hc, hroom, MAX_INPUT_SIZE]
  have h2 : line_edit (List.foldl line_edit [] s ++ [c]) 8 = List.foldl line_edit [] s := by
    simp [line_edit]
  rw [h1, h2]

/-- Claim C16.  First part: with the in-progress line non-empty (`index > 0`) a backspace
makes the body of the loop lower `index` by one, hand exactly one `'\b'` to the output sink
and leave `input_buffer` alone.  Second part: let `s` and `t` be character sequences without
newline and carriage return, the in-progress line after `s` holding fewer than 255
characters, and `c` a character that is neither newline, carriage return nor backspace;
then `read_input` returns on the characters `s`, `c`, `'\b'`, `t`, newline and on the
characters `s`, `t`, newline, and the two final lines, terminator included, are the same
line, the one `s` followed by `t` produces. -/
theorem C16_backspace_cancels :
    (∀ (m : Machine) (index : Nat), 0 < index →
      ∃ m2, read_input_body 8 index m = (false, index - 1, m2) ∧ m2.sink = m.sink ++ [8] ∧
        m2.input_buffer = m.input_buffer) ∧
    (∀ (m m' : Machine) (s t : List Nat) (c : Nat) (rest rest' : List Nat) (fuel : Nat),
      ring_ok m → ring_ok m' →
      incoming m = (s ++ c :: 8 :: t) ++ 10 :: rest →
      incoming m' = (s ++ t) ++ 10 :: rest' →
      (∀ x ∈ s, x ≠ 10 ∧ x ≠ 13) → (∀ x ∈ t, x ≠ 10 ∧ x ≠ 13) →
      c ≠ 10 → c ≠ 13 → c ≠ 8 →
      (line_after s).length < 255 →
      s.length + t.length + 2 < fuel →
      ∃ m2 m2', read_input fuel m = some m2 ∧ read_input fuel m' = some m2' ∧
        (List.range ((line_after (s ++ t)).length + 1)).map m2.input_buffer
          = line_after (s ++ t) ++ [0] ∧
        (List.range ((line_after (s ++ t)).length + 1)).map m2'.input_buffer
          = line_after (s ++ t) ++ [0]) := by
  constructor
  · intro m index hpos
    refine ⟨terminal_putchar 8 m, ?_, terminal_putchar_sink 8 m, (terminal_putchar_same 8 m).1⟩
    simp [read_input_body, hpos]
  · intro m m' s t c rest rest' fuel hok hok' hin hin' hs ht c10 c13 c8 hroom hfuel
    have hnl : ∀ x ∈ s ++ c :: 8 :: t, x ≠ 10 ∧ x ≠ 13 := by
      intro x hx
      simp only [List.mem_append, List.mem_cons] at hx
      rcases hx with hx | rfl | rfl | hx
      · exact hs x hx
      · exact ⟨c10, c13⟩
      · decide
      · exact ht x hx
    have hnl' : ∀ x ∈ s ++ t, x ≠ 10 ∧ x ≠ 13 := by
      intro x hx
      simp only [List.mem_append] at hx
      rcases hx with hx | hx
      · exact hs x hx
      · exact ht x hx
    obtain ⟨m2, a1, a2, _⟩ := read_input_edits m (s ++ c :: 8 :: t) rest fuel hok hin hnl
      (by simp only [List.length_append, List.length_cons]; omega)
    obtain ⟨m2', b1, b2, _⟩ := read_input_edits m' (s ++ t) rest' fuel hok' hin' hnl'
      (by simp only [List.length_append]; omega)
    rw [line_after_cancel s t c c8 hroom] at a2
    exact ⟨m2, m2', a1, b1, a2, b2⟩

/-- Witness of C16: a backspace at `index` 3, and the keys a, b, x, backspace, c, Enter
against the keys a, b, c, Enter; both lines are `abc`. -/
theorem C16_backspace_cancels_witness :
    (∃ m2, read_input_body 8 3 boot = (false, 3 - 1, m2) ∧ m2.sink = boot.sink ++ [8] ∧
        m2.input_buffer = boot.input_buffer) ∧
    (∃ m2 m2', read_input 6 { boot with keyboard := [30, 48, 45, 14, 46, 28] } = some m2 ∧
      read_input 6 { boot with keyboard := [30, 48, 46, 28] } = some m2' ∧
      (List.range 4).map m2.input_buffer = [97, 98, 99, 0] ∧
      (List.range 4).map m2'.input_buffer = [97, 98, 99, 0]) :=
  ⟨C16_backspace_cancels.1 boot 3 (by decide),
    C16_backspace_cancels.2 { boot with keyboard := [30, 48, 45, 14, 46, 28] }
      { boot with keyboard := [30, 48, 46, 28] } [97, 98] [99] 120 [] [] 6 (by decide)
      (by decide) (by decide) (by decide) (by decide) (by decide) (by decide) (by decide)
      (by decide) (by decide) (by decide)⟩

/-! ## Interrupts between the steps of `get_char` -/

theorem unread_room_of_not_full (m : Machine) (hok : ring_ok m)
    (h : buffer_is_full m = false) : (unread m).length < 127 := by
  rw [unread_length]
  obtain ⟨hh, ht⟩ := hok
  simp only [BUFFER_SIZE] at hh ht
  simp only [buffer_is_full, BUFFER_SIZE, beq_eq_false_iff_ne, ne_eq] at h
  omega

theorem unread_keyboard_isr (m : Machine) (scancode : Nat) (hok : ring_ok m) :
    unread (keyboard_isr scancode m)
      = unread m ++
        (if scancode_to_char m scancode ≠ 0 ∧ buffer_is_full m = false then
          [scancode_to_char m scancode]
        else []) := by
  by_cases hc : scancode_to_char m scancode ≠ 0 ∧ buffer_is_full m = false
  · have h := (unread_push m (scancode_to_char m scancode) hok hc.1
      (unread_room_of_not_full m hok hc.2)).1
    simp only [hc, and_self, if_true, ne_eq, not_false_eq_true]
    rw [← h]
    simp [keyboard_isr, outb, unread]
  · simp only [hc, if_false, List.append_nil]
    simp only [keyboard_isr, outb, keyboard_isr_push, hc, if_false, unread]

theorem interleaved_ok_interrupt (scancode : Nat) (s : Interleaved) (h : interleaved_ok s) :
    interleaved_ok (interrupt_step scancode s) := by
  obtain ⟨hok, hlog, hpc⟩ := h
  have hu := unread_keyboard_isr s.machine scancode hok
  refine ⟨ring_ok_keyboard_isr s.machine scancode hok, ?_, ?_⟩
  · simp only [interrupt_step, hu]
    split_ifs
    · rw [hlog, List.append_assoc]
    · rw [hlog, List.append_nil]
  · simp only [interrupt_step, hu]
    cases hp : s.pc with
    | test => trivial
    | read =>
      rw [hp] at hpc
      simp only at hpc ⊢
      intro hnil
      exact hpc (List.append_eq_nil.mp hnil).1
    | update c =>
      rw [hp] at hpc
      simp only at hpc ⊢
      obtain ⟨u, hu2⟩ := hpc
      exact ⟨u ++ _, by rw [hu2, List.cons_append]⟩

theorem interleaved_ok_mainline (s : Interleaved) (h : interleaved_ok s) :
    interleaved_ok (mainline_step s) := by
  obtain ⟨hok, hlog, hpc⟩ := h
  cases hp : s.pc with
  | test =>
    by_cases he : buffer_is_empty s.machine = true
    · simp only [mainline_step, hp, he, if_true]
      exact ⟨hok, hlog, by rw [hp]; trivial⟩
    · simp only [mainline_step, hp, he, if_false]
      refine ⟨hok, hlog, ?_⟩
      intro hnil
      exact he (buffer_is_empty_of_unread_nil s.machine hok hnil)
  | read =>
    rw [hp] at hpc
    simp only at hpc
    obtain ⟨d, u, hu⟩ := List.exists_cons_of_ne_nil hpc
    obtain ⟨p1, _, _⟩ := pop_of_unread s.machine d u hok hu
    simp only [mainline_step, hp]
    refine ⟨hok, hlog, ?_⟩
    simp only
    exact ⟨u, by rw [p1]; exact hu⟩
  | update c =>
    rw [hp] at hpc
    simp only at hpc
    obtain ⟨u, hu⟩ := hpc
    obtain ⟨_, p2, p3⟩ := pop_of_unread s.machine c u hok hu
    simp only [mainline_step, hp]
    refine ⟨p3, ?_, trivial⟩
    simp only
    rw [p2, hlog, hu]
    simp

theorem interleaved_ok_run (ts : List Tick) (s : Interleaved) (h : interleaved_ok s) :
    interleaved_ok (interleaved_run ts s) := by
  induction ts generalizing s with
  | nil => exact h
  | cons t ts ih =>
    simp only [interleaved_run, List.foldl_cons]
    apply ih
    cases t with
    | interrupt scancode => exact interleaved_ok_interrupt scancode s h
    | mainline => exact interleaved_ok_mainline s h

/-- Without an interrupt in between, the three steps of the mainline on a non-empty buffer
are one call of `get_char`. -/
theorem mainline_steps_are_get_char (s : Interleaved) (hpc : s.pc = GetCharPc.test)
    (hne : buffer_is_empty s.machine = false) :
    ∃ c m2, get_char s.machine = some (c, m2) ∧
      mainline_step (mainline_step (mainline_step s))
        = { s with machine := m2, returned := s.returned ++ [c] } := by
  refine ⟨s.machine.key_buffer s.machine.buffer_tail,
    { s.machine with buffer_tail := (s.machine.buffer_tail + 1) % BUFFER_SIZE }, ?_, ?_⟩
  · simp [get_char, get_char_wait_of_not_empty _ s.machine hne]
  · cases s with
    | mk machine pc enqueued returned =>
      simp only at hpc hne
      subst hpc
      simp [mainline_step, hne]

/-- Claim C15.  Let the mainline call `get_char` again and again, starting on an empty
ring buffer, and let `keyboard_isr` run to completion, with any scancode, any number of
times, between any two steps of the mainline (the emptiness test, the slot read, the update
of `buffer_tail`).  Then, after every schedule, the characters `keyboard_isr` enqueued are
the characters `get_char` returned followed by those still unread in the buffer: what was
returned is a leading part of what was enqueued, in the same order, nothing lost or
doubled. -/
theorem C15_returned_leads_enqueued (ts : List Tick) (s0 : Interleaved)
    (hpc : s0.pc = GetCharPc.test) (hempty : s0.machine.buffer_head = s0.machine.buffer_tail)
    (hpos : s0.machine.buffer_head < 128) (henq : s0.enqueued = [])
    (hret : s0.returned = []) :
    (interleaved_run ts s0).enqueued
        = (interleaved_run ts s0).returned ++ unread (interleaved_run ts s0).machine ∧
      ∃ rest, (interleaved_run ts s0).enqueued = (interleaved_run ts s0).returned ++ rest := by
  have h0 : interleaved_ok s0 := by
    refine ⟨?_, ?_, ?_⟩
    · simp only [ring_ok, BUFFER_SIZE]
      omega
    · have hnil : unread s0.machine = [] := by
        simp [unread, hempty, BUFFER_SIZE]
      rw [henq, hret, hnil]
      rfl
    · rw [hpc]
      trivial
  have h := (interleaved_ok_run ts s0 h0).2.1
  exact ⟨h, _, h⟩

/-- Witness of C15: the key `a` arrives, the mainline tests and reads, the key `s` arrives
before the update of `buffer_tail`, left shift arrives, the mainline updates and tests
again. -/
theorem C15_returned_leads_enqueued_witness :
    (interleaved_run
        [Tick.interrupt 30, Tick.mainline, Tick.mainline, Tick.interrupt 31, Tick.interrupt 42,
          Tick.mainline, Tick.mainline]
        { machine := boot, pc := GetCharPc.test, enqueued := [], returned := [] }).enqueued
      = (interleaved_run
        [Tick.interrupt 30, Tick.mainline, Tick.mainline, Tick.interrupt 31, Tick.interrupt 42,
          Tick.mainline, Tick.mainline]
        { machine := boot, pc := GetCharPc.test, enqueued := [], returned := [] }).returned
        ++ unread (interleaved_run
        [Tick.interrupt 30, Tick.mainline, Tick.mainline, Tick.interrupt 31, Tick.interrupt 42,
          Tick.mainline, Tick.mainline]
        { machine := boot, pc := GetCharPc.test, enqueued := [], returned := [] }).machine :=
  (C15_returned_leads_enqueued
    [Tick.interrupt 30, Tick.mainline, Tick.mainline, Tick.interrupt 31, Tick.interrupt 42,
      Tick.mainline, Tick.mainline]
    { machine := boot, pc := GetCharPc.test, enqueued := [], returned := [] } rfl rfl
    (by decide) rfl rfl).1

end Kernel
